import Mathlib

/-!
Password generator (`main.go`): shallow embedding and verified properties.

The Go program builds a password from four fixed character classes, after
filtering out visually similar / syntactically ambiguous characters, drawing
one required character per enabled class, filling the rest from the combined
pool and finally applying a Fisher–Yates shuffle.

Modelling conventions

* A Go `string` is a sequence of bytes (`GoString`); it need not be valid
  UTF-8.  `for _, c := range s` decodes it rune by rune (`stringRunes`), and
  `strings.Builder.WriteRune`, `string(byte)` and `string([]rune)` encode runes
  back to UTF-8 (`encodeRune`).
* A `rune` is a natural number, `Nat` (no rune of this program is negative).
* `crypto/rand` is an entropy stream with a cursor (`RandReader`).
  `rand.Int(rand.Reader, max)` panics when `max <= 0` and otherwise yields a
  value of `[0, max)`: the next raw stream value reduced modulo `max`, so that
  every value of the range is, and only values of the range are, possible.
  A failing reader (`err != nil`) is not part of the model.
* A runtime panic is an `Except.error`; the normal Go result `(string, error)`
  is a pair of a `GoString` and an optional error message.
* `make([]rune, length)` fails when `length` exceeds the largest slice length
  the runtime can allocate, `maxLen`, a parameter of the run: on a 64-bit
  platform `makeslice` panics with `len out of range` as soon as the four-byte
  elements need more than `2^48` bytes, so `maxLen` is at most `2^46`
  (`maxLen64`), and below that it depends on the memory available.  The other
  allocations of the program (its strings, `requiredChars`) are smaller than
  this slice and are taken to succeed.
-/

namespace PasswordGenerator

/-! ## Go strings, runes and UTF-8 -/

/-- A Go string: an immutable sequence of bytes. -/
abbrev GoString := List UInt8

/-- The replacement rune `utf8.RuneError` (U+FFFD). -/
def RuneError : Nat := 0xFFFD

/-- Unicode scalar values: the runes that have a UTF-8 encoding of their own
(`utf8.ValidRune`). -/
def ValidRune (r : Nat) : Prop := r < 0xD800 ∨ (0xDFFF < r ∧ r ≤ 0x10FFFF)

instance (r : Nat) : Decidable (ValidRune r) := by
  unfold ValidRune
  infer_instance

/-- The UTF-8 encoding of a rune as `utf8.AppendRune` writes it: one to four
bytes, and the three bytes of `RuneError` for a surrogate or a value above
U+10FFFF. -/
def encodeRune (r : Nat) : GoString :=
  if r < 0x80 then [r.toUInt8]
  else if r < 0x800 then [(0xC0 + r / 64).toUInt8, (0x80 + r % 64).toUInt8]
  else if 0x10FFFF < r ∨ (0xD800 ≤ r ∧ r ≤ 0xDFFF) then [0xEF, 0xBF, 0xBD]
  else if r < 0x10000 then
    [(0xE0 + r / 4096).toUInt8, (0x80 + r / 64 % 64).toUInt8, (0x80 + r % 64).toUInt8]
  else
    [(0xF0 + r / 262144).toUInt8, (0x80 + r / 4096 % 64).toUInt8,
      (0x80 + r / 64 % 64).toUInt8, (0x80 + r % 64).toUInt8]

/-- The conversion `string(rs)` of a rune slice: the concatenated encodings. -/
def encodeRunes (rs : List Nat) : GoString := rs.flatMap encodeRune

/-- A continuation byte `10xxxxxx`. -/
def isCont (b : Nat) : Bool := decide (0x80 ≤ b ∧ b ≤ 0xBF)

/-- The first rune of a string and the number of bytes it occupies, as
`utf8.DecodeRuneInString` computes them: an ill-formed or truncated sequence
yields `(RuneError, 1)`, the empty string `(RuneError, 0)`. -/
def decodeRune (s : GoString) : Nat × Nat :=
  match s.map UInt8.toNat with
  | [] => (RuneError, 0)
  | s0 :: rest =>
    if s0 < 0x80 then (s0, 1)
    else if s0 < 0xC2 then (RuneError, 1)
    else if s0 < 0xE0 then
      match rest with
      | s1 :: _ => if isCont s1 then (s0 % 32 * 64 + s1 % 64, 2) else (RuneError, 1)
      | _ => (RuneError, 1)
    else if s0 < 0xF0 then
      match rest with
      | s1 :: s2 :: _ =>
        let lo := if s0 = 0xE0 then 0xA0 else 0x80
        let hi := if s0 = 0xED then 0x9F else 0xBF
        if lo ≤ s1 ∧ s1 ≤ hi ∧ isCont s2 then
          (s0 % 16 * 4096 + s1 % 64 * 64 + s2 % 64, 3)
        else (RuneError, 1)
      | _ => (RuneError, 1)
    else if s0 < 0xF5 then
      match rest with
      | s1 :: s2 :: s3 :: _ =>
        let lo := if s0 = 0xF0 then 0x90 else 0x80
        let hi := if s0 = 0xF4 then 0x8F else 0xBF
        if lo ≤ s1 ∧ s1 ≤ hi ∧ isCont s2 ∧ isCont s3 then
          (s0 % 8 * 262144 + s1 % 64 * 4096 + s2 % 64 * 64 + s3 % 64, 4)
        else (RuneError, 1)
      | _ => (RuneError, 1)
    else (RuneError, 1)

/-- The runes of the loop `for _, c := range s`, with the number of remaining
iterations bounded by `fuel`; every iteration consumes at least one byte, so
`fuel = len(s)` always suffices. -/
def stringRunesAux : Nat → GoString → List Nat
  | 0, _ => []
  | _, [] => []
  | fuel + 1, b :: bs =>
    let d := decodeRune (b :: bs)
    d.1 :: stringRunesAux fuel ((b :: bs).drop d.2)

/-- The runes that `for _, c := range s` iterates over. -/
def stringRunes (s : GoString) : List Nat := stringRunesAux s.length s

/-- The bytes of a Go string literal of the source text (source files are
UTF-8). -/
def goString (s : String) : GoString := encodeRunes (s.toList.map Char.toNat)

/-- The predicate `strings.ContainsRune(s, r)`: the code point `r` occurs in
`s`. -/
def ContainsRune (s : GoString) (r : Nat) : Bool := decide (r ∈ stringRunes s)

/-- A string of 7-bit characters only. -/
def IsASCII (s : GoString) : Prop := ∀ b ∈ s, b.toNat < 0x80

instance (s : GoString) : Decidable (IsASCII s) := by
  unfold IsASCII
  infer_instance

/-! ## The constants of `main.go` -/

def digitChars : GoString := goString "23456789"
def symbolChars : GoString := goString "!@#$%^&*()_+-=[]\x7b\x7d|;:,.<>?"
def upperChars : GoString := goString "ABCDEFGHJKLMNPQRSTUVWXYZ"
def lowerChars : GoString := goString "abcdefghijkmnpqrstuvwxyz"
def similarChars : GoString := goString "il1Lo0O"
def ambiguousChars : GoString := goString "\x7b\x7d[]()/\\\x27\"\x60~,;:.<>"

/-! ## The random source and runtime panics -/

/-- The runtime panics the program can raise. -/
inductive Panic where
  /-- The panic of `rand.Int` for an argument `<= 0`. -/
  | randIntNonPositive
  /-- An index out of range on a string or a slice. -/
  | indexOutOfRange
  /-- The failure of `make`: `makeslice: len out of range`, or no memory for
  the slice. -/
  | makesliceLenOutOfRange
  deriving DecidableEq, Repr

/-- The state of `rand.Reader`: a stream of raw random values and the number
of draws made so far. -/
structure RandReader where
  stream : Nat → Nat
  pos : Nat

/-- The call `rand.Int(rand.Reader, big.NewInt(max))`. -/
def randInt (rd : RandReader) (max : Nat) : Except Panic (Nat × RandReader) :=
  if max = 0 then .error .randIntNonPositive
  else .ok (rd.stream rd.pos % max, { rd with pos := rd.pos + 1 })

/-- An indexing expression `xs[i]`, with its bounds check. -/
def index {α : Type} (xs : List α) (i : Nat) : Except Panic α :=
  match xs.get? i with
  | some x => .ok x
  | none => .error .indexOutOfRange

/-- An assignment `xs[i] = v`, with its bounds check. -/
def assign {α : Type} (xs : List α) (i : Nat) (v : α) : Except Panic (List α) :=
  if i < xs.length then .ok (xs.set i v) else .error .indexOutOfRange

/-! ## The functions of `main.go` -/

/-- Go `filterChars`: copies the runes of `chars` to a builder, skipping the
excluded ones. -/
def filterChars (chars : GoString) (excludeSimilar excludeAmbiguous : Bool) : GoString :=
  (stringRunes chars).foldl
    (fun result c =>
      if excludeSimilar && ContainsRune similarChars c then result
      else if excludeAmbiguous && ContainsRune ambiguousChars c then result
      else result ++ encodeRune c)
    []

/-- Go `randomChar`: draws `n` below `len(pool)` and returns
`string(pool[n])`, the encoding of the byte `pool[n]` taken as a rune. -/
def randomChar (pool : GoString) (rd : RandReader) : Except Panic (GoString × RandReader) :=
  match randInt rd pool.length with
  | .error e => .error e
  | .ok (n, rd1) =>
    match index pool n with
    | .error e => .error e
    | .ok b => .ok (encodeRune b.toNat, rd1)

/-- The loop of Go `shuffle` with loop variable `i`, counting down to 1:
draw `j` below `i + 1` and swap `password[i]` with `password[j]`. -/
def shuffleLoop : Nat → List Nat → RandReader → Except Panic (List Nat × RandReader)
  | 0, password, rd => .ok (password, rd)
  | i + 1, password, rd =>
    match randInt rd (i + 1 + 1) with
    | .error e => .error e
    | .ok (j, rd1) =>
      match index password j, index password (i + 1) with
      | .ok pj, .ok pi =>
        match assign password (i + 1) pj with
        | .error e => .error e
        | .ok p1 =>
          match assign p1 j pi with
          | .error e => .error e
          | .ok p2 => shuffleLoop i p2 rd1
      | .error e, _ => .error e
      | _, .error e => .error e

/-- Go `shuffle`: the loop starts at `i = len(password) - 1` and runs while
`i > 0` (no iteration for an empty or one-element slice). -/
def shuffle (password : List Nat) (rd : RandReader) : Except Panic (List Nat × RandReader) :=
  shuffleLoop (password.length - 1) password rd

/-- One of the four class blocks of `GeneratePassword`: when the class is
enabled, its filtered alphabet is appended to `charPool` and one character
drawn from it to `requiredChars`. -/
def addClass (enabled : Bool) (base : GoString) (excludeSimilar excludeAmbiguous : Bool)
    (st : GoString × List GoString × RandReader) :
    Except Panic (GoString × List GoString × RandReader) :=
  if enabled then
    let d := filterChars base excludeSimilar excludeAmbiguous
    match randomChar d st.2.2 with
    | .error e => .error e
    | .ok (c, rd1) => .ok (st.1 ++ d, st.2.1 ++ [c], rd1)
  else .ok st

/-- The four class blocks in source order: digits, symbols, upper, lower;
yields `charPool`, `requiredChars` and the reader. -/
def collectClasses (digits symbols upper lower excludeSimilar excludeAmbiguous : Bool)
    (rd : RandReader) : Except Panic (GoString × List GoString × RandReader) :=
  match addClass digits digitChars excludeSimilar excludeAmbiguous ([], [], rd) with
  | .error e => .error e
  | .ok st1 =>
    match addClass symbols symbolChars excludeSimilar excludeAmbiguous st1 with
    | .error e => .error e
    | .ok st2 =>
      match addClass upper upperChars excludeSimilar excludeAmbiguous st2 with
      | .error e => .error e
      | .ok st3 => addClass lower lowerChars excludeSimilar excludeAmbiguous st3

/-- The loop `for i, c := range requiredChars { password[i] = rune(c[0]) }`,
from index `i` on. -/
def placeRequired : List GoString → Nat → List Nat → Except Panic (List Nat)
  | [], _, password => .ok password
  | c :: cs, i, password =>
    match index c 0 with
    | .error e => .error e
    | .ok b =>
      match assign password i b.toNat with
      | .error e => .error e
      | .ok p1 => placeRequired cs (i + 1) p1

/-- The loop `for i := len(requiredChars); i < length; i++` with `k`
iterations left: `password[i] = rune(randomChar(charPool)[0])`. -/
def fillLoop (charPool : GoString) :
    Nat → Nat → List Nat → RandReader → Except Panic (List Nat × RandReader)
  | 0, _, password, rd => .ok (password, rd)
  | k + 1, i, password, rd =>
    match randomChar charPool rd with
    | .error e => .error e
    | .ok (c, rd1) =>
      match index c 0 with
      | .error e => .error e
      | .ok b =>
        match assign password i b.toNat with
        | .error e => .error e
        | .ok p1 => fillLoop charPool k (i + 1) p1 rd1

/-- The expression `make([]rune, length)`: a slice of `length` zero runes; a
panic when `length` is negative or exceeds `maxLen`, the largest length the
runtime can allocate. -/
def makeRunes (maxLen : Nat) (length : Int) : Except Panic (List Nat) :=
  if length < 0 ∨ (maxLen : Int) < length then .error .makesliceLenOutOfRange
  else .ok (List.replicate length.toNat 0)

/-- The slice handed to `shuffle`: `make([]rune, length)` with the required
characters in front and the rest drawn from `charPool`. -/
def assemble (maxLen : Nat) (length : Int) (charPool : GoString)
    (requiredChars : List GoString) (rd : RandReader) : Except Panic (List Nat × RandReader) :=
  match makeRunes maxLen length with
  | .error e => .error e
  | .ok password =>
    match placeRequired requiredChars 0 password with
    | .error e => .error e
    | .ok p1 =>
      fillLoop charPool (length.toNat - requiredChars.length) requiredChars.length p1 rd

/-- The message of
`fmt.Errorf("password length must be at least %d for selected character sets", n)`. -/
def lengthTooShortForClasses (n : Nat) : String :=
  "password length must be at least " ++ toString n ++ " for selected character sets"

/-- Go `GeneratePassword`, run where `make` can allocate at most `maxLen`
runes.  The result is the returned pair `(string, error)` together with the
reader state, or a panic. -/
def GeneratePassword (maxLen : Nat) (length : Int)
    (digits symbols upper lower excludeSimilar excludeAmbiguous : Bool) (rd : RandReader) :
    Except Panic ((GoString × Option String) × RandReader) :=
  if length < 8 then .ok (([], some "password length must be at least 8 characters"), rd)
  else
    match collectClasses digits symbols upper lower excludeSimilar excludeAmbiguous rd with
    | .error e => .error e
    | .ok (charPool, requiredChars, rd1) =>
      if charPool = [] then .ok (([], some "at least one character set must be selected"), rd1)
      else if length < (requiredChars.length : Int) then
        .ok (([], some (lengthTooShortForClasses requiredChars.length)), rd1)
      else
        match assemble maxLen length charPool requiredChars rd1 with
        | .error e => .error e
        | .ok (p1, rd2) =>
          match shuffle p1 rd2 with
          | .error e => .error e
          | .ok (p2, rd3) => .ok ((encodeRunes p2, none), rd3)


/-! ## Auxiliary definitions for the statements about `shuffle` -/

/-- The exchange `xs[i], xs[j] = xs[j], xs[i]` on a list. -/
def swap (xs : List Nat) (i j : Nat) : List Nat :=
  (xs.set i (xs.getD j 0)).set j (xs.getD i 0)

/-- The effect of the shuffle loop when its draws, in the order they are made
(`j_i` for the loop indices `i = n-1, ..., 1`), are the given list. -/
def applyDraws : List Nat → List Nat → List Nat
  | [], xs => xs
  | j :: js, xs => applyDraws js (swap xs (js.length + 1) j)

/-- The draws a shuffle loop starting at loop index `i` obtains from a
reader: `j_i, ..., j_1`. -/
def drawsFrom (rd : RandReader) : Nat → List Nat
  | 0 => []
  | i + 1 => rd.stream rd.pos % (i + 1 + 1) :: drawsFrom { rd with pos := rd.pos + 1 } i

/-- A draw sequence `j_i, ..., j_1` is admissible when `0 <= j_k <= k` for
each `k`. -/
def Admissible : List Nat → Prop
  | [] => True
  | j :: js => j ≤ js.length + 1 ∧ Admissible js

instance decAdmissible : (js : List Nat) → Decidable (Admissible js)
  | [] => isTrue trivial
  | j :: js =>
    match decAdmissible js with
    | isTrue h => if hj : j ≤ js.length + 1 then isTrue ⟨hj, h⟩ else isFalse (fun c => hj c.1)
    | isFalse h => isFalse (fun c => h c.2)

/-- A reader that delivers the given values first. -/
def readerOf (js : List Nat) : RandReader := { stream := fun k => js.getD k 0, pos := 0 }

/-! ## Auxiliary definitions for the statements about `GeneratePassword` -/

/-- The filtered pools of the enabled classes, in the order digits, symbols,
upper, lower. -/
def enabledPools (digits symbols upper lower excludeSimilar excludeAmbiguous : Bool) :
    List GoString :=
  (if digits then [filterChars digitChars excludeSimilar excludeAmbiguous] else [])
    ++ (if symbols then [filterChars symbolChars excludeSimilar excludeAmbiguous] else [])
    ++ (if upper then [filterChars upperChars excludeSimilar excludeAmbiguous] else [])
    ++ (if lower then [filterChars lowerChars excludeSimilar excludeAmbiguous] else [])

/-- The combined pool: the concatenation of the filtered pools of the enabled
classes. -/
def combinedPool (digits symbols upper lower excludeSimilar excludeAmbiguous : Bool) :
    GoString :=
  (enabledPools digits symbols upper lower excludeSimilar excludeAmbiguous).flatten

/-- The byte of `pool` that a raw random value selects. -/
def pick (pool : GoString) (raw : Nat) : UInt8 := pool.getD (raw % pool.length) 0

/-- One byte from each of the given pools, selected by the stream values from
position `pos` on. -/
def requiredBytes (stream : Nat → Nat) : List GoString → Nat → GoString
  | [], _ => []
  | p :: ps, pos => pick p (stream pos) :: requiredBytes stream ps (pos + 1)

/-- The result of `k` draws from `pool`, selected by the stream values from
position `pos` on. -/
def fillBytes (stream : Nat → Nat) (pool : GoString) : Nat → Nat → GoString
  | 0, _ => []
  | k + 1, pos => pick pool (stream pos) :: fillBytes stream pool k (pos + 1)

/-- The bytes stored in the slice before it is shuffled, for a request of
length `n`: one byte per enabled class, then the bytes drawn from the combined
pool. -/
def assembledBytes (n : Nat) (digits symbols upper lower excludeSimilar excludeAmbiguous : Bool)
    (rd : RandReader) : GoString :=
  requiredBytes rd.stream
      (enabledPools digits symbols upper lower excludeSimilar excludeAmbiguous) rd.pos
    ++ fillBytes rd.stream
      (combinedPool digits symbols upper lower excludeSimilar excludeAmbiguous)
      (n - (enabledPools digits symbols upper lower excludeSimilar excludeAmbiguous).length)
      (rd.pos + (enabledPools digits symbols upper lower excludeSimilar excludeAmbiguous).length)

/-- The largest `maxLen` of a 64-bit platform: `make([]rune, n)` panics with
`makeslice: len out of range` for every `n` above it. -/
def maxLen64 : Nat := 2 ^ 46

/-- A reader used to run the program on concrete requests. -/
def sampleReader : RandReader :=
  readerOf [3, 1, 4, 1, 5, 9, 2, 6, 5, 3, 5, 8, 9, 7, 9, 3, 2, 3, 8, 4]

/-! ## The class filter in the words of the specification -/

/-- The filter of the specification: a character is kept exactly when it is
not (`excludeSimilar` and one of `il1Lo0O`) and not (`excludeAmbiguous` and
one of the ambiguous characters). -/
def keepSpec (excludeSimilar excludeAmbiguous : Bool) (c : Nat) : Bool :=
  !(excludeSimilar && decide (c ∈ "il1Lo0O".toList.map Char.toNat))
    && !(excludeAmbiguous
      && decide (c ∈ "\x7b\x7d[]()/\\\x27\"\x60~,;:.<>".toList.map Char.toNat))

/-- The order-preserving filter of the specification, on a sequence of
characters. -/
def filterSpec (cs : List Nat) (excludeSimilar excludeAmbiguous : Bool) : List Nat :=
  cs.filter (keepSpec excludeSimilar excludeAmbiguous)

/-! ## Bytes, runes and UTF-8: basic facts -/

theorem toUInt8_toNat (b : UInt8) : b.toNat.toUInt8 = b := by
  cases b with
  | mk v =>
    apply congrArg UInt8.mk
    show BitVec.ofNat 8 v.toNat = v
    simp

theorem toNat_toUInt8 (n : Nat) : n.toUInt8.toNat = n % 256 := rfl

theorem encodeRune_of_lt {r : Nat} (h : r < 0x80) : encodeRune r = [r.toUInt8] := by
  simp [encodeRune, h]

theorem encodeRune_byte {b : UInt8} (h : b.toNat < 0x80) : encodeRune b.toNat = [b] := by
  rw [encodeRune_of_lt h, toUInt8_toNat]

theorem decodeRune_ascii {b : UInt8} (bs : GoString) (h : b.toNat < 0x80) :
    decodeRune (b :: bs) = (b.toNat, 1) := by
  simp [decodeRune, h]

theorem decodeRune_size_pos (b : UInt8) (bs : GoString) : 1 ≤ (decodeRune (b :: bs)).2 := by
  unfold decodeRune
  simp only [List.map_cons]
  repeat' split
  all_goals simp

theorem stringRunesAux_fuel (fuel : Nat) : ∀ s : GoString, s.length ≤ fuel →
    stringRunesAux fuel s = stringRunesAux s.length s := by
  induction fuel using Nat.strong_induction_on with
  | _ fuel ih =>
    intro s hs
    cases s with
    | nil => cases fuel <;> rfl
    | cons b bs =>
      cases fuel with
      | zero => simp at hs
      | succ f =>
        have hpos := decodeRune_size_pos b bs
        have hd : ((b :: bs).drop (decodeRune (b :: bs)).2).length ≤ bs.length := by
          rw [List.length_drop, List.length_cons]; omega
        have hbs : bs.length ≤ f := by simpa using hs
        simp only [stringRunesAux, List.length_cons]
        rw [ih f (Nat.lt_succ_self f) _ (by omega)]
        by_cases hlt : bs.length < f + 1
        · rw [ih bs.length hlt _ hd]
        · omega

theorem stringRunesAux_ascii (s : GoString) (h : IsASCII s) :
    ∀ fuel, s.length ≤ fuel → stringRunesAux fuel s = s.map UInt8.toNat := by
  induction s with
  | nil => intro fuel _; cases fuel <;> rfl
  | cons b bs ih =>
    intro fuel hf
    cases fuel with
    | zero => simp at hf
    | succ f =>
      have hb : b.toNat < 0x80 := h b (List.mem_cons_self _ _)
      have hbs : IsASCII bs := fun x hx => h x (List.mem_cons_of_mem _ hx)
      simp only [stringRunesAux, decodeRune_ascii bs hb, List.drop_succ_cons, List.drop_zero,
        List.map_cons]
      rw [ih hbs f (by simpa using hf)]

theorem stringRunes_ascii {s : GoString} (h : IsASCII s) :
    stringRunes s = s.map UInt8.toNat :=
  stringRunesAux_ascii s h _ (Nat.le_refl _)

theorem encodeRunes_ascii {s : GoString} (h : IsASCII s) :
    encodeRunes (s.map UInt8.toNat) = s := by
  induction s with
  | nil => rfl
  | cons b bs ih =>
    have hb : b.toNat < 0x80 := h b (List.mem_cons_self _ _)
    have hbs : IsASCII bs := fun x hx => h x (List.mem_cons_of_mem _ hx)
    simp only [encodeRunes, List.map_cons, List.flatMap_cons, encodeRune_byte hb] at ih ⊢
    rw [ih hbs]
    rfl


theorem decodeRune_encodeRune {r : Nat} (h : ValidRune r) (rest : GoString) :
    decodeRune (encodeRune r ++ rest) = (r, (encodeRune r).length) := by
  unfold ValidRune at h
  by_cases h1 : r < 0x80
  · have e : encodeRune r = [r.toUInt8] := by simp [encodeRune, h1]
    rw [e]
    have : r % 256 = r := by omega
    simp [decodeRune, toNat_toUInt8, this, h1]
  by_cases h2 : r < 0x800
  · have e : encodeRune r = [(0xC0 + r / 64).toUInt8, (0x80 + r % 64).toUInt8] := by
      simp [encodeRune, h1, h2]
    rw [e]
    have a0 : (0xC0 + r / 64) % 256 = 0xC0 + r / 64 := by omega
    have a1 : (0x80 + r % 64) % 256 = 0x80 + r % 64 := by omega
    simp only [decodeRune, List.cons_append, List.nil_append, List.map_cons, toNat_toUInt8, a0, a1,
      isCont]
    have c1 : ¬ (0xC0 + r / 64 < 0x80) := by omega
    have c2 : ¬ (0xC0 + r / 64 < 0xC2) := by omega
    have c3 : 0xC0 + r / 64 < 0xE0 := by omega
    have c4 : (0x80 ≤ 0x80 + r % 64 ∧ 0x80 + r % 64 ≤ 0xBF) := by omega
    have v : (0xC0 + r / 64) % 32 * 64 + (0x80 + r % 64) % 64 = r := by omega
    simp only [c1, c2, c3, c4, v, if_true, if_false, decide_True, and_self, List.length_cons,
      List.length_nil]
  have h3 : ¬ (0x10FFFF < r ∨ (0xD800 ≤ r ∧ r ≤ 0xDFFF)) := by omega
  by_cases h4 : r < 0x10000
  · have e : encodeRune r =
        [(0xE0 + r / 4096).toUInt8, (0x80 + r / 64 % 64).toUInt8, (0x80 + r % 64).toUInt8] := by
      simp only [encodeRune, h1, h2, h3, h4, if_true, if_false]
    rw [e]
    have a0 : (0xE0 + r / 4096) % 256 = 0xE0 + r / 4096 := by omega
    have a1 : (0x80 + r / 64 % 64) % 256 = 0x80 + r / 64 % 64 := by omega
    have a2 : (0x80 + r % 64) % 256 = 0x80 + r % 64 := by omega
    simp only [decodeRune, List.cons_append, List.nil_append, List.map_cons, toNat_toUInt8, a0, a1,
      a2, isCont]
    have c1 : ¬ (0xE0 + r / 4096 < 0x80) := by omega
    have c2 : ¬ (0xE0 + r / 4096 < 0xC2) := by omega
    have c3 : ¬ (0xE0 + r / 4096 < 0xE0) := by omega
    have c4 : 0xE0 + r / 4096 < 0xF0 := by omega
    have c5 : (if 0xE0 + r / 4096 = 0xE0 then 0xA0 else 0x80) ≤ 0x80 + r / 64 % 64 := by
      split <;> omega
    have c6 : 0x80 + r / 64 % 64 ≤ (if 0xE0 + r / 4096 = 0xED then 0x9F else 0xBF) := by
      split <;> omega
    have c7 : (0x80 ≤ 0x80 + r % 64 ∧ 0x80 + r % 64 ≤ 0xBF) := by omega
    have v : (0xE0 + r / 4096) % 16 * 4096 + (0x80 + r / 64 % 64) % 64 * 64
        + (0x80 + r % 64) % 64 = r := by omega
    simp only [c1, c2, c3, c4, c5, c6, c7, v, if_true, if_false, decide_True, and_self,
      List.length_cons, List.length_nil]
  · have e : encodeRune r =
        [(0xF0 + r / 262144).toUInt8, (0x80 + r / 4096 % 64).toUInt8,
          (0x80 + r / 64 % 64).toUInt8, (0x80 + r % 64).toUInt8] := by
      simp only [encodeRune, h1, h2, h3, h4, if_true, if_false]
    rw [e]
    have a0 : (0xF0 + r / 262144) % 256 = 0xF0 + r / 262144 := by omega
    have a1 : (0x80 + r / 4096 % 64) % 256 = 0x80 + r / 4096 % 64 := by omega
    have a2 : (0x80 + r / 64 % 64) % 256 = 0x80 + r / 64 % 64 := by omega
    have a3 : (0x80 + r % 64) % 256 = 0x80 + r % 64 := by omega
    simp only [decodeRune, List.cons_append, List.nil_append, List.map_cons, toNat_toUInt8, a0, a1,
      a2, a3, isCont]
    have c1 : ¬ (0xF0 + r / 262144 < 0x80) := by omega
    have c2 : ¬ (0xF0 + r / 262144 < 0xC2) := by omega
    have c3 : ¬ (0xF0 + r / 262144 < 0xE0) := by omega
    have c4 : ¬ (0xF0 + r / 262144 < 0xF0) := by omega
    have c4b : 0xF0 + r / 262144 < 0xF5 := by omega
    have c5 : (if 0xF0 + r / 262144 = 0xF0 then 0x90 else 0x80) ≤ 0x80 + r / 4096 % 64 := by
      split <;> omega
    have c6 : 0x80 + r / 4096 % 64 ≤ (if 0xF0 + r / 262144 = 0xF4 then 0x8F else 0xBF) := by
      split <;> omega
    have c7 : (0x80 ≤ 0x80 + r / 64 % 64 ∧ 0x80 + r / 64 % 64 ≤ 0xBF) := by omega
    have c8 : (0x80 ≤ 0x80 + r % 64 ∧ 0x80 + r % 64 ≤ 0xBF) := by omega
    have v : (0xF0 + r / 262144) % 8 * 262144 + (0x80 + r / 4096 % 64) % 64 * 4096
        + (0x80 + r / 64 % 64) % 64 * 64 + (0x80 + r % 64) % 64 = r := by omega
    simp only [c1, c2, c3, c4, c4b, c5, c6, c7, c8, v, if_true, if_false, decide_True, and_self,
      List.length_cons, List.length_nil]

/-! ## The random source and `shuffle` -/

theorem randInt_ok (rd : RandReader) {max : Nat} (h : 0 < max) :
    randInt rd max = .ok (rd.stream rd.pos % max, { rd with pos := rd.pos + 1 }) := by
  simp [randInt, Nat.pos_iff_ne_zero.mp h]

theorem index_ok {α : Type} (xs : List α) {i : Nat} (h : i < xs.length) :
    index xs i = .ok xs[i] := by
  simp [index, List.getElem?_eq_getElem h]

theorem assign_ok {α : Type} (xs : List α) {i : Nat} (v : α) (h : i < xs.length) :
    assign xs i v = .ok (xs.set i v) := by
  simp [assign, h]

theorem length_swap (xs : List Nat) (i j : Nat) : (swap xs i j).length = xs.length := by
  simp [swap]

theorem length_drawsFrom (i : Nat) : ∀ rd : RandReader, (drawsFrom rd i).length = i := by
  induction i with
  | zero => intro rd; rfl
  | succ i ih => intro rd; simp [drawsFrom, ih]

theorem admissible_drawsFrom (i : Nat) : ∀ rd : RandReader, Admissible (drawsFrom rd i) := by
  induction i with
  | zero => intro rd; trivial
  | succ i ih =>
    intro rd
    refine ⟨?_, ih _⟩
    rw [length_drawsFrom]
    exact Nat.le_of_lt_succ (Nat.mod_lt _ (Nat.succ_pos _))

theorem length_applyDraws (js : List Nat) : ∀ xs : List Nat, (applyDraws js xs).length = xs.length := by
  induction js with
  | nil => intro xs; rfl
  | cons j js ih => intro xs; simp [applyDraws, ih, length_swap]

theorem shuffleLoop_eq (i : Nat) : ∀ (pw : List Nat) (rd : RandReader), i < pw.length →
    shuffleLoop i pw rd
      = .ok (applyDraws (drawsFrom rd i) pw, { rd with pos := rd.pos + i }) := by
  induction i with
  | zero => intro pw rd _; rfl
  | succ i ih =>
    intro pw rd h
    have hj : rd.stream rd.pos % (i + 1 + 1) < pw.length :=
      Nat.lt_of_lt_of_le (Nat.mod_lt _ (Nat.succ_pos _)) h
    have hlen : i < ((pw.set (i + 1) pw[rd.stream rd.pos % (i + 1 + 1)]).set
        (rd.stream rd.pos % (i + 1 + 1)) pw[i + 1]).length := by
      simp only [List.length_set]; omega
    simp only [shuffleLoop, randInt_ok rd (Nat.succ_pos (i + 1)), index_ok pw hj, index_ok pw h]
    rw [assign_ok _ _ (by simpa using h)]
    simp only []
    rw [assign_ok _ _ (by simpa using hj)]
    simp only [ih _ _ hlen, drawsFrom, applyDraws, length_drawsFrom, swap,
      List.getD_eq_getElem _ 0 hj, List.getD_eq_getElem _ 0 h]
    congr 2
    simp only [Nat.add_assoc, Nat.add_comm 1 i]

theorem shuffle_eq (pw : List Nat) (rd : RandReader) :
    shuffle pw rd = .ok (applyDraws (drawsFrom rd (pw.length - 1)) pw,
      { rd with pos := rd.pos + (pw.length - 1) }) := by
  cases pw with
  | nil => rfl
  | cons x xs => exact shuffleLoop_eq _ _ rd (by simp)

theorem getD_cons_set_perm (x : Nat) : ∀ (xs : List Nat) (j : Nat), j < xs.length →
    (xs.getD j 0 :: xs.set j x).Perm (x :: xs) := by
  intro xs
  induction xs with
  | nil => intro j h; simp at h
  | cons y ys ih =>
    intro j h
    cases j with
    | zero => exact List.Perm.swap _ _ _
    | succ j =>
      have h2 : j < ys.length := by simpa using h
      have e1 : (y :: ys).getD (j + 1) 0 = ys.getD j 0 := by simp
      rw [e1, List.set_cons_succ]
      exact ((List.Perm.swap _ _ _).trans ((ih j h2).cons y)).trans (List.Perm.swap _ _ _)

theorem swap_perm : ∀ (xs : List Nat) (i j : Nat), i < xs.length → j < xs.length →
    (swap xs i j).Perm xs := by
  intro xs
  induction xs with
  | nil => intro i j h; simp at h
  | cons y ys ih =>
    intro i j hi hj
    cases i with
    | zero =>
      cases j with
      | zero => simp [swap]
      | succ j =>
        have h2 : j < ys.length := by simpa using hj
        have e : swap (y :: ys) 0 (j + 1) = ys.getD j 0 :: ys.set j y := by simp [swap]
        rw [e]
        exact getD_cons_set_perm y ys j h2
    | succ i =>
      have h1 : i < ys.length := by simpa using hi
      cases j with
      | zero =>
        have e : swap (y :: ys) (i + 1) 0 = ys.getD i 0 :: ys.set i y := by simp [swap]
        rw [e]
        exact getD_cons_set_perm y ys i h1
      | succ j =>
        have h2 : j < ys.length := by simpa using hj
        have e : swap (y :: ys) (i + 1) (j + 1) = y :: swap ys i j := by simp [swap]
        rw [e]
        exact (ih i j h1 h2).cons y

theorem applyDraws_perm (js : List Nat) : ∀ xs : List Nat, Admissible js →
    js.length < xs.length → (applyDraws js xs).Perm xs := by
  induction js with
  | nil => intro xs _ _; exact List.Perm.refl _
  | cons j js ih =>
    intro xs ha hl
    have hl2 : js.length + 1 < xs.length := by simpa using hl
    have hj : j < xs.length := Nat.lt_of_le_of_lt ha.1 hl2
    have hs := swap_perm xs (js.length + 1) j hl2 hj
    have hl3 : js.length < (swap xs (js.length + 1) j).length := by
      rw [length_swap]; omega
    exact (ih _ ha.2 hl3).trans hs

theorem shuffle_perm (pw : List Nat) (rd : RandReader) :
    (applyDraws (drawsFrom rd (pw.length - 1)) pw).Perm pw := by
  cases pw with
  | nil => exact List.Perm.refl _
  | cons x xs =>
    apply applyDraws_perm _ _ (admissible_drawsFrom _ _)
    rw [length_drawsFrom]
    simp

/-! ## Character pools and `randomChar` -/

theorem pools_ok : ∀ es ea : Bool,
    (0 < (filterChars digitChars es ea).length ∧ IsASCII (filterChars digitChars es ea))
    ∧ (0 < (filterChars symbolChars es ea).length ∧ IsASCII (filterChars symbolChars es ea))
    ∧ (0 < (filterChars upperChars es ea).length ∧ IsASCII (filterChars upperChars es ea))
    ∧ (0 < (filterChars lowerChars es ea).length ∧ IsASCII (filterChars lowerChars es ea)) := by
  decide

theorem pick_mem {pool : GoString} (h : 0 < pool.length) (raw : Nat) : pick pool raw ∈ pool := by
  unfold pick
  rw [List.getD_eq_getElem _ 0 (Nat.mod_lt _ h)]
  exact List.getElem_mem _

theorem randomChar_eq {pool : GoString} (rd : RandReader) (h : 0 < pool.length)
    (ha : IsASCII pool) :
    randomChar pool rd = .ok ([pick pool (rd.stream rd.pos)], { rd with pos := rd.pos + 1 }) := by
  have hk : rd.stream rd.pos % pool.length < pool.length := Nat.mod_lt _ h
  have hb : (pool[rd.stream rd.pos % pool.length]).toNat < 0x80 := ha _ (List.getElem_mem _)
  simp only [randomChar, randInt_ok rd h, index_ok pool hk, encodeRune_byte hb, pick,
    List.getD_eq_getElem _ 0 hk]

theorem addClass_true {base : GoString} {es ea : Bool}
    (h : 0 < (filterChars base es ea).length ∧ IsASCII (filterChars base es ea))
    (cp : GoString) (rq : List GoString) (rd : RandReader) :
    addClass true base es ea (cp, rq, rd)
      = .ok (cp ++ filterChars base es ea,
          rq ++ [[pick (filterChars base es ea) (rd.stream rd.pos)]],
          { rd with pos := rd.pos + 1 }) := by
  simp only [addClass, if_true, randomChar_eq rd h.1 h.2]

theorem addClass_false (base : GoString) (es ea : Bool)
    (st : GoString × List GoString × RandReader) : addClass false base es ea st = .ok st := rfl

theorem collectClasses_eq (d s u l es ea : Bool) (rd : RandReader) :
    collectClasses d s u l es ea rd
      = .ok (combinedPool d s u l es ea,
          (requiredBytes rd.stream (enabledPools d s u l es ea) rd.pos).map (fun b => [b]),
          { rd with pos := rd.pos + (enabledPools d s u l es ea).length }) := by
  obtain ⟨hd, hs, hu, hl⟩ := pools_ok es ea
  cases d <;> cases s <;> cases u <;> cases l <;>
    simp [collectClasses, addClass_false, addClass_true hd, addClass_true hs, addClass_true hu,
      addClass_true hl, combinedPool, enabledPools, requiredBytes, Nat.add_assoc]

/-! ## Assembling the password -/

theorem assign_append {pre : List Nat} (x : Nat) (suf : List Nat) (v : Nat) :
    assign (pre ++ x :: suf) pre.length v = .ok ((pre ++ [v]) ++ suf) := by
  rw [assign_ok _ _ (by simp)]
  simp

theorem placeRequired_eq (bs : GoString) : ∀ (pre suf : List Nat), bs.length ≤ suf.length →
    placeRequired (bs.map (fun b => [b])) pre.length (pre ++ suf)
      = .ok (pre ++ bs.map UInt8.toNat ++ suf.drop bs.length) := by
  induction bs with
  | nil => intro pre suf _; simp [placeRequired]
  | cons b bs ih =>
    intro pre suf h
    cases suf with
    | nil => simp at h
    | cons x suf =>
      have h2 : bs.length ≤ suf.length := by simpa using h
      have e : index [b] 0 = .ok b := rfl
      simp only [List.map_cons, placeRequired, e, assign_append]
      have := ih (pre ++ [b.toNat]) suf h2
      simp only [List.length_append, List.length_singleton] at this
      rw [this]
      simp

theorem fillLoop_eq {pool : GoString} (hp : 0 < pool.length) (ha : IsASCII pool) (k : Nat) :
    ∀ (pre suf : List Nat) (rd : RandReader), k ≤ suf.length →
    fillLoop pool k pre.length (pre ++ suf) rd
      = .ok (pre ++ (fillBytes rd.stream pool k rd.pos).map UInt8.toNat ++ suf.drop k,
          { rd with pos := rd.pos + k }) := by
  induction k with
  | zero => intro pre suf rd _; simp [fillLoop, fillBytes]
  | succ k ih =>
    intro pre suf rd h
    cases suf with
    | nil => simp at h
    | cons x suf =>
      have h2 : k ≤ suf.length := by simpa using h
      have e : ∀ b : UInt8, index [b] 0 = .ok b := fun _ => rfl
      simp only [fillLoop, randomChar_eq rd hp ha, e, assign_append]
      have := ih (pre ++ [(pick pool (rd.stream rd.pos)).toNat]) suf
        { rd with pos := rd.pos + 1 } h2
      simp only [List.length_append, List.length_singleton] at this
      rw [this]
      simp [fillBytes, Nat.add_assoc, Nat.add_comm 1 k]

theorem makeRunes_ok {maxLen n : Nat} (hm : n ≤ maxLen) :
    makeRunes maxLen (n : Int) = .ok (List.replicate n 0) := by
  have h : ¬ ((n : Int) < 0 ∨ (maxLen : Int) < (n : Int)) := by omega
  simp only [makeRunes, h, if_false, Int.toNat_ofNat]

theorem makeRunes_panic {maxLen : Nat} {length : Int} (hm : (maxLen : Int) < length) :
    makeRunes maxLen length = .error .makesliceLenOutOfRange := by
  simp only [makeRunes, hm, or_true, if_true]

theorem assemble_eq {pool : GoString} (hp : 0 < pool.length) (ha : IsASCII pool)
    {maxLen : Nat} (n : Nat) (bs : GoString) (rd : RandReader) (h : bs.length ≤ n)
    (hm : n ≤ maxLen) :
    assemble maxLen (n : Int) pool (bs.map (fun b => [b])) rd
      = .ok ((bs ++ fillBytes rd.stream pool (n - bs.length) rd.pos).map UInt8.toNat,
          { rd with pos := rd.pos + (n - bs.length) }) := by
  have h1 := placeRequired_eq bs [] (List.replicate n 0) (by simpa using h)
  simp only [List.length_nil, List.nil_append] at h1
  have h2 := fillLoop_eq hp ha (n - bs.length) (bs.map UInt8.toNat)
    (List.replicate (n - bs.length) 0) rd (by simp)
  simp only [List.length_map] at h2
  simp only [assemble, makeRunes_ok hm, Int.toNat_ofNat, h1, List.drop_replicate,
    List.length_map, h2]
  simp

theorem length_enabledPools_le (d s u l es ea : Bool) :
    (enabledPools d s u l es ea).length ≤ 4 := by
  cases d <;> cases s <;> cases u <;> cases l <;> simp [enabledPools]

theorem enabledPools_ok (d s u l es ea : Bool) :
    ∀ p ∈ enabledPools d s u l es ea, 0 < p.length ∧ IsASCII p := by
  obtain ⟨hd, hs, hu, hl⟩ := pools_ok es ea
  intro p hp
  simp only [enabledPools, List.mem_append] at hp
  rcases hp with ((hp | hp) | hp) | hp
  · cases d
    · simp at hp
    · simp at hp; rw [hp]; exact hd
  · cases s
    · simp at hp
    · simp at hp; rw [hp]; exact hs
  · cases u
    · simp at hp
    · simp at hp; rw [hp]; exact hu
  · cases l
    · simp at hp
    · simp at hp; rw [hp]; exact hl

theorem isASCII_flatten (ps : List GoString) (h : ∀ p ∈ ps, IsASCII p) : IsASCII ps.flatten := by
  intro x hx
  obtain ⟨p, hp, hxp⟩ := List.mem_flatten.mp hx
  exact h p hp x hxp

theorem isASCII_combinedPool (d s u l es ea : Bool) : IsASCII (combinedPool d s u l es ea) :=
  isASCII_flatten _ (fun p hp => (enabledPools_ok d s u l es ea p hp).2)

theorem enabledPools_ne_nil {d s u l : Bool} (es ea : Bool) (h : (d || s || u || l) = true) :
    enabledPools d s u l es ea ≠ [] := by
  cases d <;> cases s <;> cases u <;> cases l <;> simp [enabledPools] at h ⊢

theorem length_combinedPool_pos {d s u l : Bool} (es ea : Bool) (h : (d || s || u || l) = true) :
    0 < (combinedPool d s u l es ea).length := by
  have hne := enabledPools_ne_nil es ea h
  have hok := enabledPools_ok d s u l es ea
  unfold combinedPool
  cases hps : enabledPools d s u l es ea with
  | nil => exact absurd hps hne
  | cons p ps =>
    have := (hok p (by rw [hps]; exact List.mem_cons_self _ _)).1
    simp only [List.flatten_cons, List.length_append]
    omega

theorem length_requiredBytes (stream : Nat → Nat) (ps : List GoString) :
    ∀ pos, (requiredBytes stream ps pos).length = ps.length := by
  induction ps with
  | nil => intro pos; rfl
  | cons p ps ih => intro pos; simp [requiredBytes, ih]

theorem length_fillBytes (stream : Nat → Nat) (pool : GoString) (k : Nat) :
    ∀ pos, (fillBytes stream pool k pos).length = k := by
  induction k with
  | zero => intro pos; rfl
  | succ k ih => intro pos; simp [fillBytes, ih]

theorem encodeRunes_of_lt (rs : List Nat) (h : ∀ r ∈ rs, r < 0x80) :
    encodeRunes rs = rs.map Nat.toUInt8 := by
  induction rs with
  | nil => rfl
  | cons r rs ih =>
    have h1 : r < 0x80 := h r (List.mem_cons_self _ _)
    have h2 : ∀ x ∈ rs, x < 0x80 := fun x hx => h x (List.mem_cons_of_mem _ hx)
    have := ih h2
    simp only [encodeRunes, List.flatMap_cons, encodeRune_of_lt h1, List.map_cons] at this ⊢
    rw [this]
    rfl

theorem requiredBytes_forall₂ (stream : Nat → Nat) (ps : List GoString)
    (h : ∀ p ∈ ps, 0 < p.length) :
    ∀ pos, List.Forall₂ (fun b p => b ∈ p) (requiredBytes stream ps pos) ps := by
  induction ps with
  | nil => intro pos; exact List.Forall₂.nil
  | cons p ps ih =>
    intro pos
    exact List.Forall₂.cons (pick_mem (h p (List.mem_cons_self _ _)) _)
      (ih (fun q hq => h q (List.mem_cons_of_mem _ hq)) _)

theorem mem_of_mem_requiredBytes (stream : Nat → Nat) (ps : List GoString)
    (h : ∀ p ∈ ps, 0 < p.length) :
    ∀ pos, ∀ b ∈ requiredBytes stream ps pos, ∃ p ∈ ps, b ∈ p := by
  induction ps with
  | nil => intro pos b hb; simp [requiredBytes] at hb
  | cons p ps ih =>
    intro pos b hb
    rcases List.mem_cons.mp hb with hb | hb
    · exact ⟨p, List.mem_cons_self _ _, hb ▸ pick_mem (h p (List.mem_cons_self _ _)) _⟩
    · obtain ⟨q, hq, hbq⟩ := ih (fun q hq => h q (List.mem_cons_of_mem _ hq)) _ b hb
      exact ⟨q, List.mem_cons_of_mem _ hq, hbq⟩

theorem exists_mem_requiredBytes (stream : Nat → Nat) (ps : List GoString)
    (h : ∀ p ∈ ps, 0 < p.length) :
    ∀ pos, ∀ p ∈ ps, ∃ b ∈ requiredBytes stream ps pos, b ∈ p := by
  induction ps with
  | nil => intro pos p hp; simp at hp
  | cons q ps ih =>
    intro pos p hp
    rcases List.mem_cons.mp hp with hp | hp
    · exact ⟨_, List.mem_cons_self _ _, hp ▸ pick_mem (h q (List.mem_cons_self _ _)) _⟩
    · obtain ⟨b, hb, hbp⟩ := ih (fun q hq => h q (List.mem_cons_of_mem _ hq)) (pos + 1) p hp
      exact ⟨b, List.mem_cons_of_mem _ hb, hbp⟩

theorem mem_of_mem_fillBytes (stream : Nat → Nat) {pool : GoString} (h : 0 < pool.length)
    (k : Nat) : ∀ pos, ∀ b ∈ fillBytes stream pool k pos, b ∈ pool := by
  induction k with
  | zero => intro pos b hb; simp [fillBytes] at hb
  | succ k ih =>
    intro pos b hb
    rcases List.mem_cons.mp hb with hb | hb
    · exact hb ▸ pick_mem h _
    · exact ih _ b hb

theorem mem_combinedPool_of_mem_assembledBytes (n : Nat) {d s u l : Bool} (es ea : Bool)
    (rd : RandReader) (hc : (d || s || u || l) = true) :
    ∀ b ∈ assembledBytes n d s u l es ea rd, b ∈ combinedPool d s u l es ea := by
  intro b hb
  have hok := enabledPools_ok d s u l es ea
  rcases List.mem_append.mp hb with hb | hb
  · obtain ⟨p, hp, hbp⟩ := mem_of_mem_requiredBytes _ _ (fun p hp => (hok p hp).1) _ b hb
    exact List.mem_flatten.mpr ⟨p, hp, hbp⟩
  · exact mem_of_mem_fillBytes _ (length_combinedPool_pos es ea hc) _ _ b hb

theorem length_assembledBytes (n : Nat) (d s u l es ea : Bool) (rd : RandReader) (h : 4 ≤ n) :
    (assembledBytes n d s u l es ea rd).length = n := by
  have hk := length_enabledPools_le d s u l es ea
  simp only [assembledBytes, List.length_append, length_requiredBytes, length_fillBytes]
  omega

theorem GeneratePassword_eq {maxLen : Nat} (n : Nat) (d s u l es ea : Bool) (rd : RandReader)
    (h8 : 8 ≤ n) (hc : (d || s || u || l) = true) (hm : n ≤ maxLen) :
    GeneratePassword maxLen (n : Int) d s u l es ea rd
      = .ok (((applyDraws (drawsFrom { rd with pos := rd.pos + n } (n - 1))
            ((assembledBytes n d s u l es ea rd).map UInt8.toNat)).map Nat.toUInt8, none),
          { rd with pos := rd.pos + n + (n - 1) }) := by
  have hk := length_enabledPools_le d s u l es ea
  have hpos := length_combinedPool_pos es ea hc
  have hne : combinedPool d s u l es ea ≠ [] := List.ne_nil_of_length_pos hpos
  have hlt : ¬ ((n : Int) < 8) := by omega
  have hlen : (requiredBytes rd.stream (enabledPools d s u l es ea) rd.pos).length ≤ n := by
    rw [length_requiredBytes]; omega
  have hlt2 : ¬ ((n : Int) < ((enabledPools d s u l es ea).length : Int)) := by omega
  have hasm := assemble_eq hpos (isASCII_combinedPool d s u l es ea) n
    (requiredBytes rd.stream (enabledPools d s u l es ea) rd.pos)
    { rd with pos := rd.pos + (enabledPools d s u l es ea).length } hlen hm
  simp only [length_requiredBytes] at hasm
  have hlenA := length_assembledBytes n d s u l es ea rd (by omega)
  have e1 : (enabledPools d s u l es ea).length + (n - (enabledPools d s u l es ea).length) = n := by
    omega
  have e2 : rd.pos + (enabledPools d s u l es ea).length
      + (n - (enabledPools d s u l es ea).length) = rd.pos + n := by omega
  have hperm := shuffle_perm ((assembledBytes n d s u l es ea rd).map UInt8.toNat)
    { rd with pos := rd.pos + n }
  rw [List.length_map, hlenA] at hperm
  have hsmall : ∀ r ∈ applyDraws (drawsFrom { rd with pos := rd.pos + n } (n - 1))
      ((assembledBytes n d s u l es ea rd).map UInt8.toNat), r < 0x80 := by
    intro r hr
    obtain ⟨b, hb, rfl⟩ := List.mem_map.mp (hperm.mem_iff.mp hr)
    exact isASCII_combinedPool d s u l es ea b
      (mem_combinedPool_of_mem_assembledBytes n es ea rd hc b hb)
  simp only [GeneratePassword, hlt, if_false, collectClasses_eq, hne, hlt2, hasm, shuffle_eq,
    List.length_map, List.length_append, length_requiredBytes, length_fillBytes, e1, e2]
  rw [← encodeRunes_of_lt _ hsmall]
  rfl

/-! ## The outcomes of `GeneratePassword` -/

theorem GeneratePassword_of_lt {maxLen : Nat} {length : Int} (d s u l es ea : Bool)
    (rd : RandReader) (h : length < 8) :
    GeneratePassword maxLen length d s u l es ea rd
      = .ok (([], some "password length must be at least 8 characters"), rd) := by
  simp only [GeneratePassword, h, if_true]

theorem GeneratePassword_of_no_class {maxLen : Nat} {length : Int} (es ea : Bool)
    (rd : RandReader) (h : 8 ≤ length) :
    GeneratePassword maxLen length false false false false es ea rd
      = .ok (([], some "at least one character set must be selected"), rd) := by
  have hlt : ¬ (length < 8) := by omega
  simp only [GeneratePassword, hlt, if_false, collectClasses_eq]
  rfl

/-- The password of a valid request, as a function of the reader. -/
theorem GeneratePassword_ok {maxLen : Nat} {length : Int} (d s u l es ea : Bool)
    (rd : RandReader) (h8 : 8 ≤ length) (hc : (d || s || u || l) = true)
    (hm : length ≤ (maxLen : Int)) :
    ∃ pw : GoString,
      GeneratePassword maxLen length d s u l es ea rd
        = .ok ((pw, none), { rd with pos := rd.pos + length.toNat + (length.toNat - 1) })
      ∧ pw.Perm (assembledBytes length.toNat d s u l es ea rd) ∧ IsASCII pw := by
  obtain ⟨n, rfl⟩ := Int.eq_ofNat_of_zero_le (by omega : 0 ≤ length)
  have hn : 8 ≤ n := by omega
  have hm' : n ≤ maxLen := by omega
  refine ⟨_, GeneratePassword_eq n d s u l es ea rd hn hc hm', ?_, ?_⟩
  all_goals
    have hasc : IsASCII (assembledBytes n d s u l es ea rd) := fun b hb =>
      isASCII_combinedPool d s u l es ea b
        (mem_combinedPool_of_mem_assembledBytes n es ea rd hc b hb)
    have hperm := shuffle_perm ((assembledBytes n d s u l es ea rd).map UInt8.toNat)
      { rd with pos := rd.pos + n }
    rw [List.length_map, length_assembledBytes n d s u l es ea rd (by omega)] at hperm
    have hback : ((assembledBytes n d s u l es ea rd).map UInt8.toNat).map Nat.toUInt8
        = assembledBytes n d s u l es ea rd := by
      rw [List.map_map]
      conv => rhs; rw [← List.map_id (assembledBytes n d s u l es ea rd)]
      exact List.map_congr_left (fun b _ => toUInt8_toNat b)
    have hp2 := hperm.map Nat.toUInt8
    rw [hback] at hp2
    first
      | exact hp2
      | exact fun b hb => hasc b (hp2.mem_iff.mp hb)

/-- The run of a request that `make` cannot serve: the class blocks make
their draws, then `make` panics. -/
theorem GeneratePassword_too_long {maxLen : Nat} {length : Int} (d s u l es ea : Bool)
    (rd : RandReader) (h8 : 8 ≤ length) (hc : (d || s || u || l) = true)
    (hm : (maxLen : Int) < length) :
    GeneratePassword maxLen length d s u l es ea rd = .error .makesliceLenOutOfRange := by
  have hk := length_enabledPools_le d s u l es ea
  have hne : combinedPool d s u l es ea ≠ [] :=
    List.ne_nil_of_length_pos (length_combinedPool_pos es ea hc)
  have hlt : ¬ (length < 8) := by omega
  have hlt2 : ¬ (length < (((requiredBytes rd.stream (enabledPools d s u l es ea) rd.pos).map
      (fun b => [b])).length : Int)) := by
    rw [List.length_map, length_requiredBytes]; omega
  simp only [GeneratePassword, hlt, if_false, collectClasses_eq, hne, hlt2, assemble,
    makeRunes_panic hm]

theorem GeneratePassword_of_class (maxLen : Nat) {length : Int} (d s u l es ea : Bool)
    (rd : RandReader) (h8 : 8 ≤ length) (hc : (d || s || u || l) = true) :
    (∃ pw rd', GeneratePassword maxLen length d s u l es ea rd = .ok ((pw, none), rd'))
      ∨ GeneratePassword maxLen length d s u l es ea rd = .error .makesliceLenOutOfRange := by
  by_cases hm : length ≤ (maxLen : Int)
  · obtain ⟨pw, he, _, _⟩ := GeneratePassword_ok d s u l es ea rd h8 hc hm
    exact Or.inl ⟨pw, _, he⟩
  · exact Or.inr (GeneratePassword_too_long d s u l es ea rd h8 hc (by omega))

theorem flags_cases (d s u l : Bool) :
    (d = false ∧ s = false ∧ u = false ∧ l = false) ∨ (d || s || u || l) = true := by
  cases d <;> cases s <;> cases u <;> cases l <;> simp

/-- A call that returns without error was a valid request, and its password
is a rearrangement of the assembled bytes. -/
theorem GeneratePassword_success {maxLen : Nat} {length : Int} {d s u l es ea : Bool}
    {rd rd' : RandReader} {pw : GoString}
    (h : GeneratePassword maxLen length d s u l es ea rd = .ok ((pw, none), rd')) :
    (8 ≤ length ∧ length ≤ (maxLen : Int)) ∧ (d || s || u || l) = true
      ∧ pw.Perm (assembledBytes length.toNat d s u l es ea rd) ∧ IsASCII pw
      ∧ rd' = { rd with pos := rd.pos + length.toNat + (length.toNat - 1) } := by
  by_cases h8 : length < 8
  · rw [GeneratePassword_of_lt d s u l es ea rd h8] at h
    simp at h
  · have h8' : 8 ≤ length := by omega
    rcases flags_cases d s u l with ⟨rfl, rfl, rfl, rfl⟩ | hc
    · rw [GeneratePassword_of_no_class es ea rd h8'] at h
      simp at h
    · by_cases hm : length ≤ (maxLen : Int)
      · obtain ⟨pw2, he, hp, ha⟩ := GeneratePassword_ok d s u l es ea rd h8' hc hm
        rw [he] at h
        simp only [Except.ok.injEq, Prod.mk.injEq, and_true] at h
        obtain ⟨rfl, rfl⟩ := h
        exact ⟨⟨h8', hm⟩, hc, hp, ha, rfl⟩
      · rw [GeneratePassword_too_long d s u l es ea rd h8' hc (by omega)] at h
        simp at h

theorem mem_combinedPool {d s u l es ea : Bool} {b : UInt8} :
    b ∈ combinedPool d s u l es ea ↔
      (d = true ∧ b ∈ filterChars digitChars es ea)
      ∨ (s = true ∧ b ∈ filterChars symbolChars es ea)
      ∨ (u = true ∧ b ∈ filterChars upperChars es ea)
      ∨ (l = true ∧ b ∈ filterChars lowerChars es ea) := by
  cases d <;> cases s <;> cases u <;> cases l <;>
    simp [combinedPool, enabledPools, or_assoc]

theorem filtered_subset_base : ∀ es ea : Bool,
    (∀ b ∈ filterChars digitChars es ea, b ∈ digitChars)
    ∧ (∀ b ∈ filterChars symbolChars es ea, b ∈ symbolChars)
    ∧ (∀ b ∈ filterChars upperChars es ea, b ∈ upperChars)
    ∧ (∀ b ∈ filterChars lowerChars es ea, b ∈ lowerChars) := by
  decide

theorem base_disjoint :
    (∀ b ∈ digitChars, b ∉ symbolChars ∧ b ∉ upperChars ∧ b ∉ lowerChars)
    ∧ (∀ b ∈ symbolChars, b ∉ digitChars ∧ b ∉ upperChars ∧ b ∉ lowerChars)
    ∧ (∀ b ∈ upperChars, b ∉ digitChars ∧ b ∉ symbolChars ∧ b ∉ lowerChars)
    ∧ (∀ b ∈ lowerChars, b ∉ digitChars ∧ b ∉ symbolChars ∧ b ∉ upperChars) := by
  decide

theorem filtered_not_similar : ∀ ea : Bool,
    (∀ b ∈ filterChars digitChars true ea, b ∉ similarChars)
    ∧ (∀ b ∈ filterChars symbolChars true ea, b ∉ similarChars)
    ∧ (∀ b ∈ filterChars upperChars true ea, b ∉ similarChars)
    ∧ (∀ b ∈ filterChars lowerChars true ea, b ∉ similarChars) := by
  decide

theorem filtered_not_ambiguous : ∀ es : Bool,
    (∀ b ∈ filterChars digitChars es true, b ∉ ambiguousChars)
    ∧ (∀ b ∈ filterChars symbolChars es true, b ∉ ambiguousChars)
    ∧ (∀ b ∈ filterChars upperChars es true, b ∉ ambiguousChars)
    ∧ (∀ b ∈ filterChars lowerChars es true, b ∉ ambiguousChars) := by
  decide

theorem mem_combinedPool_of_mem_password {maxLen : Nat} {length : Int} {d s u l es ea : Bool}
    {rd rd' : RandReader} {pw : GoString}
    (h : GeneratePassword maxLen length d s u l es ea rd = .ok ((pw, none), rd')) :
    ∀ b ∈ pw, b ∈ combinedPool d s u l es ea := by
  obtain ⟨_, hc, hp, _, _⟩ := GeneratePassword_success h
  intro b hb
  exact mem_combinedPool_of_mem_assembledBytes _ es ea rd hc b (hp.mem_iff.mp hb)

theorem mem_enabledPools {d s u l es ea : Bool} {p : GoString} :
    p ∈ enabledPools d s u l es ea ↔
      (d = true ∧ p = filterChars digitChars es ea)
      ∨ (s = true ∧ p = filterChars symbolChars es ea)
      ∨ (u = true ∧ p = filterChars upperChars es ea)
      ∨ (l = true ∧ p = filterChars lowerChars es ea) := by
  cases d <;> cases s <;> cases u <;> cases l <;>
    simp [enabledPools, or_assoc]

theorem exists_mem_password_of_enabled {maxLen : Nat} {length : Int} {d s u l es ea : Bool}
    {rd rd' : RandReader} {pw : GoString}
    (h : GeneratePassword maxLen length d s u l es ea rd = .ok ((pw, none), rd'))
    {p : GoString} (hp : p ∈ enabledPools d s u l es ea) : ∃ b ∈ pw, b ∈ p := by
  obtain ⟨_, _, hperm, _, _⟩ := GeneratePassword_success h
  obtain ⟨b, hb, hbp⟩ := exists_mem_requiredBytes rd.stream _
    (fun q hq => (enabledPools_ok d s u l es ea q hq).1) rd.pos p hp
  exact ⟨b, hperm.mem_iff.mpr (List.mem_append_left _ hb), hbp⟩

/-! ## The claims about `GeneratePassword` -/

/-- C1, as stated for every length of at least 8, fails: with length `2^62`
and the four classes enabled, on a 64-bit platform, `make([]rune, length)`
panics (`makeslice: len out of range`) and no password is returned. -/
theorem generatePassword_length_makeslice_panic :
    GeneratePassword maxLen64 (2 ^ 62) true true true true true true sampleReader
        = .error .makesliceLenOutOfRange
      ∧ ¬ ∃ pw rd', GeneratePassword maxLen64 (2 ^ 62) true true true true true true
          sampleReader = .ok ((pw, none), rd') := by
  have h : GeneratePassword maxLen64 (2 ^ 62) true true true true true true sampleReader
      = .error .makesliceLenOutOfRange :=
    GeneratePassword_too_long _ _ _ _ _ _ _ (by decide) rfl (by decide)
  refine ⟨h, ?_⟩
  rintro ⟨pw, rd', h2⟩
  rw [h] at h2
  cases h2

/-- C1, amended: for every length of at least 8 that `make([]rune, length)`
can allocate (`length <= maxLen`), every choice of the class flags with at
least one of them set, every choice of the exclusion flags and every state of
the random source, `GeneratePassword` returns without error a password that
has exactly `length` bytes and exactly `length` characters. -/
theorem generatePassword_length (maxLen : Nat) (length : Int) (d s u l es ea : Bool)
    (rd : RandReader) (h8 : 8 ≤ length) (hm : length ≤ (maxLen : Int))
    (hc : d = true ∨ s = true ∨ u = true ∨ l = true) :
    ∃ pw rd', GeneratePassword maxLen length d s u l es ea rd = .ok ((pw, none), rd')
      ∧ (pw.length : Int) = length ∧ ((stringRunes pw).length : Int) = length := by
  have hc' : (d || s || u || l) = true := by
    rcases hc with h | h | h | h <;> simp [h]
  obtain ⟨pw, he, hp, ha⟩ := GeneratePassword_ok d s u l es ea rd h8 hc' hm
  have hlen : pw.length = length.toNat := by
    rw [hp.length_eq]
    exact length_assembledBytes _ d s u l es ea rd (by omega)
  refine ⟨pw, _, he, ?_, ?_⟩
  · rw [hlen]; omega
  · rw [stringRunes_ascii ha, List.length_map, hlen]; omega

theorem generatePassword_length_witness :
    ∃ pw rd', GeneratePassword maxLen64 8 false true false false true false sampleReader
        = .ok ((pw, none), rd')
      ∧ (pw.length : Int) = 8 ∧ ((stringRunes pw).length : Int) = 8 :=
  generatePassword_length maxLen64 8 false true false false true false sampleReader (by decide)
    (by decide) (Or.inr (Or.inl rfl))

/-- C2: whenever `GeneratePassword` returns without error, the password
contains, for each enabled class, at least one character of that class's
filtered alphabet. -/
theorem generatePassword_covers (maxLen : Nat) (length : Int) (d s u l es ea : Bool) (rd rd' : RandReader)
    (pw : GoString)
    (h : GeneratePassword maxLen length d s u l es ea rd = .ok ((pw, none), rd')) :
    (d = true → ∃ b ∈ pw, b ∈ filterChars digitChars es ea)
    ∧ (s = true → ∃ b ∈ pw, b ∈ filterChars symbolChars es ea)
    ∧ (u = true → ∃ b ∈ pw, b ∈ filterChars upperChars es ea)
    ∧ (l = true → ∃ b ∈ pw, b ∈ filterChars lowerChars es ea) := by
  refine ⟨fun hd => ?_, fun hs => ?_, fun hu => ?_, fun hl => ?_⟩
  · exact exists_mem_password_of_enabled h (mem_enabledPools.mpr (Or.inl ⟨hd, rfl⟩))
  · exact exists_mem_password_of_enabled h (mem_enabledPools.mpr (Or.inr (Or.inl ⟨hs, rfl⟩)))
  · exact exists_mem_password_of_enabled h
      (mem_enabledPools.mpr (Or.inr (Or.inr (Or.inl ⟨hu, rfl⟩))))
  · exact exists_mem_password_of_enabled h
      (mem_enabledPools.mpr (Or.inr (Or.inr (Or.inr ⟨hl, rfl⟩))))

theorem generatePassword_covers_witness :
    (∃ b ∈ ([53, 69, 55, 64, 52, 56, 98, 64] : GoString), b ∈ filterChars digitChars true true)
    ∧ (∃ b ∈ ([53, 69, 55, 64, 52, 56, 98, 64] : GoString), b ∈ filterChars symbolChars true true)
    ∧ (∃ b ∈ ([53, 69, 55, 64, 52, 56, 98, 64] : GoString), b ∈ filterChars upperChars true true)
    ∧ (∃ b ∈ ([53, 69, 55, 64, 52, 56, 98, 64] : GoString),
        b ∈ filterChars lowerChars true true) :=
  have h := generatePassword_covers maxLen64 8 true true true true true true sampleReader
    { sampleReader with pos := 15 } [53, 69, 55, 64, 52, 56, 98, 64] rfl
  ⟨h.1 rfl, h.2.1 rfl, h.2.2.1 rfl, h.2.2.2 rfl⟩

/-- C3: whenever `GeneratePassword` returns without error, every character
of the password lies in the filtered alphabet of an enabled class, hence in
the combined pool; it is a character of none of the disabled classes, and it
is one of the characters of the four base alphabets. -/
theorem generatePassword_within_pool (maxLen : Nat) (length : Int) (d s u l es ea : Bool)
    (rd rd' : RandReader) (pw : GoString)
    (h : GeneratePassword maxLen length d s u l es ea rd = .ok ((pw, none), rd')) :
    ∀ b ∈ pw,
      ((d = true ∧ b ∈ filterChars digitChars es ea)
        ∨ (s = true ∧ b ∈ filterChars symbolChars es ea)
        ∨ (u = true ∧ b ∈ filterChars upperChars es ea)
        ∨ (l = true ∧ b ∈ filterChars lowerChars es ea))
      ∧ b ∈ combinedPool d s u l es ea
      ∧ (d = false → b ∉ digitChars) ∧ (s = false → b ∉ symbolChars)
      ∧ (u = false → b ∉ upperChars) ∧ (l = false → b ∉ lowerChars)
      ∧ b ∈ digitChars ++ symbolChars ++ upperChars ++ lowerChars := by
  intro b hb
  have hcp := mem_combinedPool_of_mem_password h b hb
  have hcl := mem_combinedPool.mp hcp
  obtain ⟨sd, ss, su, sl⟩ := filtered_subset_base es ea
  obtain ⟨dd, ds, du, dl⟩ := base_disjoint
  refine ⟨hcl, hcp, ?_⟩
  rcases hcl with ⟨hd, hm⟩ | ⟨hs, hm⟩ | ⟨hu, hm⟩ | ⟨hl, hm⟩
  · have hbase := sd b hm
    have hx := dd b hbase
    refine ⟨fun c => ?_, fun _ => hx.1, fun _ => hx.2.1, fun _ => hx.2.2, ?_⟩
    · rw [hd] at c; cases c
    · simp [hbase]
  · have hbase := ss b hm
    have hx := ds b hbase
    refine ⟨fun _ => hx.1, fun c => ?_, fun _ => hx.2.1, fun _ => hx.2.2, ?_⟩
    · rw [hs] at c; cases c
    · simp [hbase]
  · have hbase := su b hm
    have hx := du b hbase
    refine ⟨fun _ => hx.1, fun _ => hx.2.1, fun c => ?_, fun _ => hx.2.2, ?_⟩
    · rw [hu] at c; cases c
    · simp [hbase]
  · have hbase := sl b hm
    have hx := dl b hbase
    refine ⟨fun _ => hx.1, fun _ => hx.2.1, fun _ => hx.2.2, fun c => ?_, ?_⟩
    · rw [hl] at c; cases c
    · simp [hbase]

theorem generatePassword_within_pool_witness :
    ((true = true ∧ (53 : UInt8) ∈ filterChars digitChars true true)
        ∨ (false = true ∧ (53 : UInt8) ∈ filterChars symbolChars true true)
        ∨ (false = true ∧ (53 : UInt8) ∈ filterChars upperChars true true)
        ∨ (false = true ∧ (53 : UInt8) ∈ filterChars lowerChars true true))
      ∧ (53 : UInt8) ∈ combinedPool true false false false true true
      ∧ (true = false → (53 : UInt8) ∉ digitChars)
      ∧ (false = false → (53 : UInt8) ∉ symbolChars)
      ∧ (false = false → (53 : UInt8) ∉ upperChars)
      ∧ (false = false → (53 : UInt8) ∉ lowerChars)
      ∧ (53 : UInt8) ∈ digitChars ++ symbolChars ++ upperChars ++ lowerChars :=
  generatePassword_within_pool maxLen64 8 true false false false true true sampleReader
    { sampleReader with pos := 15 } [53, 54, 55, 51, 52, 56, 51, 51] rfl 53 (by decide)

/-- C4: whenever `GeneratePassword` returns without error, the password
contains no character of `similarChars` if `excludeSimilar` is set, and no
character of `ambiguousChars` if `excludeAmbiguous` is set. -/
theorem generatePassword_excludes (maxLen : Nat) (length : Int) (d s u l es ea : Bool)
    (rd rd' : RandReader) (pw : GoString)
    (h : GeneratePassword maxLen length d s u l es ea rd = .ok ((pw, none), rd')) :
    (es = true → ∀ b ∈ pw, b ∉ similarChars)
    ∧ (ea = true → ∀ b ∈ pw, b ∉ ambiguousChars) := by
  constructor
  · intro hes b hb
    subst hes
    obtain ⟨nd, ns, nu, nl⟩ := filtered_not_similar ea
    rcases mem_combinedPool.mp (mem_combinedPool_of_mem_password h b hb) with
      ⟨_, hm⟩ | ⟨_, hm⟩ | ⟨_, hm⟩ | ⟨_, hm⟩
    · exact nd b hm
    · exact ns b hm
    · exact nu b hm
    · exact nl b hm
  · intro hea b hb
    subst hea
    obtain ⟨nd, ns, nu, nl⟩ := filtered_not_ambiguous es
    rcases mem_combinedPool.mp (mem_combinedPool_of_mem_password h b hb) with
      ⟨_, hm⟩ | ⟨_, hm⟩ | ⟨_, hm⟩ | ⟨_, hm⟩
    · exact nd b hm
    · exact ns b hm
    · exact nu b hm
    · exact nl b hm

theorem generatePassword_excludes_witness :
    (∀ b ∈ ([53, 69, 55, 64, 52, 56, 98, 64] : GoString), b ∉ similarChars)
    ∧ (∀ b ∈ ([53, 69, 55, 64, 52, 56, 98, 64] : GoString), b ∉ ambiguousChars) :=
  have h := generatePassword_excludes maxLen64 8 true true true true true true sampleReader
    { sampleReader with pos := 15 } [53, 69, 55, 64, 52, 56, 98, 64] rfl
  ⟨h.1 rfl, h.2 rfl⟩

/-- C5: for every length below 8 (negative values included), whatever the six
flags and the state of the random source, `GeneratePassword` returns the empty
string and the error "password length must be at least 8 characters"; this
holds in particular when no class is enabled. -/
theorem generatePassword_length_too_short (maxLen : Nat) (length : Int) (d s u l es ea : Bool)
    (rd : RandReader) (h : length < 8) :
    GeneratePassword maxLen length d s u l es ea rd
        = .ok (([], some "password length must be at least 8 characters"), rd)
      ∧ GeneratePassword maxLen length false false false false es ea rd
        = .ok (([], some "password length must be at least 8 characters"), rd) :=
  ⟨GeneratePassword_of_lt d s u l es ea rd h, GeneratePassword_of_lt _ _ _ _ es ea rd h⟩

theorem generatePassword_length_too_short_witness :
    GeneratePassword maxLen64 7 true true false true false true sampleReader
        = .ok (([], some "password length must be at least 8 characters"), sampleReader)
      ∧ GeneratePassword maxLen64 7 false false false false false true sampleReader
        = .ok (([], some "password length must be at least 8 characters"), sampleReader) :=
  generatePassword_length_too_short maxLen64 7 true true false true false true sampleReader (by decide)

/-- C6: for a length of at least 8, `GeneratePassword` with the four class
flags unset returns the empty string and the error "at least one character set
must be selected"; conversely, for a length of at least 8 that error is
returned only when the four class flags are unset. -/
theorem generatePassword_no_characters_selected (maxLen : Nat) (length : Int) (d s u l es ea : Bool)
    (rd : RandReader) (h8 : 8 ≤ length) :
    GeneratePassword maxLen length false false false false es ea rd
        = .ok (([], some "at least one character set must be selected"), rd)
      ∧ ∀ pw rd', GeneratePassword maxLen length d s u l es ea rd
          = .ok ((pw, some "at least one character set must be selected"), rd') →
        d = false ∧ s = false ∧ u = false ∧ l = false := by
  refine ⟨GeneratePassword_of_no_class es ea rd h8, ?_⟩
  intro pw rd' h
  rcases flags_cases d s u l with hf | hc
  · exact hf
  · rcases GeneratePassword_of_class maxLen d s u l es ea rd h8 hc with
      ⟨pw2, rd2, he⟩ | he
    · rw [he] at h
      simp at h
    · rw [he] at h
      cases h

theorem generatePassword_no_characters_selected_witness :
    GeneratePassword maxLen64 16 false false false false true true sampleReader
        = .ok (([], some "at least one character set must be selected"), sampleReader)
      ∧ ∀ pw rd', GeneratePassword maxLen64 16 false false false false true true sampleReader
          = .ok ((pw, some "at least one character set must be selected"), rd') →
        false = false ∧ false = false ∧ false = false ∧ false = false :=
  generatePassword_no_characters_selected maxLen64 16 false false false false true true sampleReader
    (by decide)

theorem length_enabledPools (d s u l es ea : Bool) :
    (enabledPools d s u l es ea).length = [d, s, u, l].count true := by
  cases d <;> cases s <;> cases u <;> cases l <;> rfl

/-- C7, as stated, fails: for length 2 with the four classes enabled the
error returned is "password length must be at least 8 characters", not the
message "password length must be at least 4 for selected character sets". -/
theorem generatePassword_length_2_not_for_classes :
    GeneratePassword maxLen64 2 true true true true true true sampleReader
        = .ok (([], some "password length must be at least 8 characters"), sampleReader)
      ∧ lengthTooShortForClasses 4
        = "password length must be at least 4 for selected character sets"
      ∧ ¬ ∃ pw rd', GeneratePassword maxLen64 2 true true true true true true sampleReader
        = .ok ((pw, some (lengthTooShortForClasses 4)), rd') := by
  refine ⟨rfl, by decide, ?_⟩
  rintro ⟨pw, rd', h⟩
  rw [GeneratePassword_of_lt _ _ _ _ _ _ _ (by decide)] at h
  simp only [Except.ok.injEq, Prod.mk.injEq, Option.some.injEq] at h
  exact absurd h.1.2 (by decide)

/-- C7, amended: a requested length smaller than the number of enabled
classes (so in particular length 2 with the four classes enabled) is smaller
than 8 and fails with "password length must be at least 8 characters". -/
theorem generatePassword_fewer_than_classes (maxLen : Nat) (length : Int) (d s u l es ea : Bool)
    (rd : RandReader) (h : length < (([d, s, u, l].count true : Nat) : Int)) :
    GeneratePassword maxLen length d s u l es ea rd
      = .ok (([], some "password length must be at least 8 characters"), rd) := by
  apply GeneratePassword_of_lt
  have := length_enabledPools_le d s u l es ea
  rw [length_enabledPools] at this
  omega

theorem generatePassword_fewer_than_classes_witness :
    GeneratePassword maxLen64 2 true true true true false false sampleReader
      = .ok (([], some "password length must be at least 8 characters"), sampleReader) :=
  generatePassword_fewer_than_classes maxLen64 2 true true true true false false sampleReader
    (by decide)

/-- C10: whenever `GeneratePassword` returns the error "password length must
be at least 8 characters" or "at least one character set must be selected",
the random source is in the state it was in before the call: no draw was
made. -/
theorem generatePassword_error_no_draw (maxLen : Nat) (length : Int) (d s u l es ea : Bool)
    (rd rd' : RandReader) (pw : GoString) (e : String)
    (h : GeneratePassword maxLen length d s u l es ea rd = .ok ((pw, some e), rd'))
    (he : e = "password length must be at least 8 characters"
      ∨ e = "at least one character set must be selected") :
    rd' = rd ∧ rd'.pos = rd.pos := by
  have _ := he
  have key : rd' = rd := by
    by_cases h8 : length < 8
    · rw [GeneratePassword_of_lt d s u l es ea rd h8] at h
      simp only [Except.ok.injEq, Prod.mk.injEq] at h
      exact h.2.symm
    · have h8' : 8 ≤ length := by omega
      rcases flags_cases d s u l with ⟨rfl, rfl, rfl, rfl⟩ | hc
      · rw [GeneratePassword_of_no_class es ea rd h8'] at h
        simp only [Except.ok.injEq, Prod.mk.injEq] at h
        exact h.2.symm
      · rcases GeneratePassword_of_class maxLen d s u l es ea rd h8' hc with
          ⟨pw2, rd2, he2⟩ | he2
        · rw [he2] at h
          simp at h
        · rw [he2] at h
          cases h
  exact ⟨key, by rw [key]⟩

theorem generatePassword_error_no_draw_witness :
    { sampleReader with pos := 0 } = sampleReader
      ∧ ({ sampleReader with pos := 0 } : RandReader).pos = sampleReader.pos :=
  generatePassword_error_no_draw maxLen64 16 false false false false true true sampleReader
    { sampleReader with pos := 0 } [] "at least one character set must be selected" rfl
    (Or.inr rfl)

/-! ## `filterChars` -/

theorem length_encodeRune_pos (r : Nat) : 0 < (encodeRune r).length := by
  unfold encodeRune
  split
  · simp
  · split
    · simp
    · split
      · simp
      · split <;> simp

theorem stringRunesAux_encodeRunes (cs : List Nat) (hv : ∀ c ∈ cs, ValidRune c) :
    ∀ fuel, (encodeRunes cs).length ≤ fuel → stringRunesAux fuel (encodeRunes cs) = cs := by
  induction cs with
  | nil => intro fuel _; cases fuel <;> rfl
  | cons c cs ih =>
    intro fuel hf
    have hc : ValidRune c := hv c (List.mem_cons_self _ _)
    have hcs : ∀ x ∈ cs, ValidRune x := fun x hx => hv x (List.mem_cons_of_mem _ hx)
    have e : encodeRunes (c :: cs) = encodeRune c ++ encodeRunes cs := by
      simp [encodeRunes]
    have hpos := length_encodeRune_pos c
    have hdec := decodeRune_encodeRune hc (encodeRunes cs)
    rw [e] at hf ⊢
    rw [List.length_append] at hf
    cases fuel with
    | zero => omega
    | succ f =>
      cases hb : encodeRune c ++ encodeRunes cs with
      | nil =>
        have := congrArg List.length hb
        simp only [List.length_append, List.length_nil] at this
        omega
      | cons b bs =>
        simp only [stringRunesAux]
        rw [← hb, hdec]
        simp only [List.drop_left]
        rw [ih hcs f (by omega)]

theorem stringRunes_encodeRunes {cs : List Nat} (hv : ∀ c ∈ cs, ValidRune c) :
    stringRunes (encodeRunes cs) = cs :=
  stringRunesAux_encodeRunes cs hv _ (Nat.le_refl _)

theorem stringRunes_similarChars :
    stringRunes similarChars = "il1Lo0O".toList.map Char.toNat := by
  decide

theorem stringRunes_ambiguousChars :
    stringRunes ambiguousChars
      = "\x7b\x7d[]()/\\\x27\"\x60~,;:.<>".toList.map Char.toNat := by
  decide

theorem foldl_skip_eq_filter (es ea : Bool) (p q : Nat → Bool) (cs : List Nat) :
    ∀ acc : GoString,
    cs.foldl
      (fun result c =>
        if es && p c then result else if ea && q c then result else result ++ encodeRune c)
      acc
    = acc ++ encodeRunes (cs.filter (fun c => !(es && p c) && !(ea && q c))) := by
  induction cs with
  | nil => intro acc; simp [encodeRunes]
  | cons c cs ih =>
    intro acc
    simp only [List.foldl_cons, ih, encodeRunes, List.filter_cons]
    cases es <;> cases ea <;> cases p c <;> cases q c <;> simp

theorem keepSpec_eq (es ea : Bool) :
    keepSpec es ea
      = fun c => !(es && ContainsRune similarChars c) && !(ea && ContainsRune ambiguousChars c) := by
  funext c
  simp only [keepSpec, ContainsRune, stringRunes_similarChars, stringRunes_ambiguousChars]

theorem filterChars_eq (chars : GoString) (es ea : Bool) :
    filterChars chars es ea = encodeRunes (filterSpec (stringRunes chars) es ea) := by
  unfold filterChars filterSpec
  rw [foldl_skip_eq_filter, keepSpec_eq]
  rfl

theorem encodeRunes_filter_sublist (p : Nat → Bool) (cs : List Nat) :
    (encodeRunes (cs.filter p)).Sublist (encodeRunes cs) := by
  induction cs with
  | nil => exact List.Sublist.refl _
  | cons c cs ih =>
    have e : encodeRunes (c :: cs) = encodeRune c ++ encodeRunes cs := by
      simp [encodeRunes]
    rw [e, List.filter_cons]
    split
    · have e2 : encodeRunes (c :: cs.filter p) = encodeRune c ++ encodeRunes (cs.filter p) := by
        simp [encodeRunes]
      rw [e2]
      exact List.Sublist.append (List.Sublist.refl _) ih
    · exact ih.trans (List.sublist_append_right _ _)

theorem filterSpec_false_false (cs : List Nat) : filterSpec cs false false = cs := by
  simp [filterSpec, keepSpec]

/-- C8, as stated for every input string, fails: on the one-byte string
`"\xff"`, which is not valid UTF-8, `filterChars` with both flags unset
returns the three bytes of U+FFFD, which is neither the input nor a
subsequence of it. -/
theorem filterChars_invalid_input :
    filterChars [0xFF] false false = [0xEF, 0xBF, 0xBD]
      ∧ filterChars [0xFF] false false ≠ [0xFF]
      ∧ ¬ (filterChars [0xFF] false false).Sublist [0xFF] := by
  decide

/-- C8, amended: for every input string that is valid UTF-8, that is, the
encoding of a sequence `cs` of Unicode characters (every ASCII string is
one), and both flags, `filterChars` returns the encoding of the
order-preserving filter of `cs` that keeps a character exactly when it is not
(`excludeSimilar` and one of `il1Lo0O`) and not (`excludeAmbiguous` and one of
the ambiguous characters); the result is a subsequence of the input, and with
both flags unset it is the input. -/
theorem filterChars_valid_input (cs : List Nat) (es ea : Bool)
    (hv : ∀ c ∈ cs, ValidRune c) :
    filterChars (encodeRunes cs) es ea = encodeRunes (filterSpec cs es ea)
      ∧ (filterChars (encodeRunes cs) es ea).Sublist (encodeRunes cs)
      ∧ filterChars (encodeRunes cs) false false = encodeRunes cs := by
  have h : ∀ a b, filterChars (encodeRunes cs) a b = encodeRunes (filterSpec cs a b) := by
    intro a b
    rw [filterChars_eq, stringRunes_encodeRunes hv]
  refine ⟨h es ea, ?_, ?_⟩
  · rw [h]
    exact encodeRunes_filter_sublist _ cs
  · rw [h, filterSpec_false_false]

theorem filterChars_valid_input_witness :
    filterChars (encodeRunes [0x41, 0x6C, 0xE9, 0x7B, 0x20AC, 0x1F600]) true true
        = encodeRunes (filterSpec [0x41, 0x6C, 0xE9, 0x7B, 0x20AC, 0x1F600] true true)
      ∧ (filterChars (encodeRunes [0x41, 0x6C, 0xE9, 0x7B, 0x20AC, 0x1F600]) true true).Sublist
        (encodeRunes [0x41, 0x6C, 0xE9, 0x7B, 0x20AC, 0x1F600])
      ∧ filterChars (encodeRunes [0x41, 0x6C, 0xE9, 0x7B, 0x20AC, 0x1F600]) false false
        = encodeRunes [0x41, 0x6C, 0xE9, 0x7B, 0x20AC, 0x1F600] :=
  filterChars_valid_input [0x41, 0x6C, 0xE9, 0x7B, 0x20AC, 0x1F600] true true (by decide)

/-! ## `shuffle` as a bijection -/

theorem swap_append_left (a b : List Nat) {i j : Nat} (hi : i < a.length) (hj : j < a.length) :
    swap (a ++ b) i j = swap a i j ++ b := by
  have e1 : (a ++ b).getD j 0 = a.getD j 0 := by
    rw [List.getD_eq_getElem _ 0 (by simp; omega), List.getD_eq_getElem _ 0 hj,
      List.getElem_append_left hj]
  have e2 : (a ++ b).getD i 0 = a.getD i 0 := by
    rw [List.getD_eq_getElem _ 0 (by simp; omega), List.getD_eq_getElem _ 0 hi,
      List.getElem_append_left hi]
  have hj2 : j < (a.set i (a.getD j 0)).length := by simpa using hj
  simp only [swap, e1, e2, List.set_append, hi, hj2, if_true]

theorem applyDraws_append (js : List Nat) : ∀ a b : List Nat, Admissible js →
    js.length < a.length → applyDraws js (a ++ b) = applyDraws js a ++ b := by
  induction js with
  | nil => intro a b _ _; rfl
  | cons j js ih =>
    intro a b ha hl
    have hl2 : js.length + 1 < a.length := by simpa using hl
    have hj : j < a.length := Nat.lt_of_le_of_lt ha.1 hl2
    simp only [applyDraws, swap_append_left a b hl2 hj]
    exact ih _ b ha.2 (by rw [length_swap]; omega)

theorem swap_last_eq (xs : List Nat) {m : Nat} (j : Nat) (hm : xs.length = m + 1) :
    swap xs m j = (swap xs m j).take m ++ [xs.getD j 0] := by
  have hlen : (swap xs m j).length = m + 1 := by rw [length_swap, hm]
  have hm1 : m < (swap xs m j).length := by omega
  have hd : (swap xs m j).drop m = [xs.getD j 0] := by
    rw [List.drop_eq_getElem_cons hm1, List.drop_of_length_le (by omega)]
    congr 1
    simp only [swap, List.getElem_set]
    split
    · rename_i h; rw [h]
    · simp
  conv => lhs; rw [← List.take_append_drop m (swap xs m j), hd]

theorem applyDraws_cons_eq (xs : List Nat) (j : Nat) (js : List Nat)
    (hlen : xs.length = js.length + 1 + 1) (ha : Admissible js) :
    applyDraws (j :: js) xs
      = applyDraws js ((swap xs (js.length + 1) j).take (js.length + 1)) ++ [xs.getD j 0] := by
  have h1 := swap_last_eq xs j hlen
  have h2 : js.length < ((swap xs (js.length + 1) j).take (js.length + 1)).length := by
    rw [List.length_take, length_swap, hlen]; omega
  conv => lhs; rw [applyDraws, h1]
  exact applyDraws_append js _ _ ha h2

theorem take_swap_perm (xs : List Nat) {m j : Nat} (hm : xs.length = m + 1) (hj : j ≤ m) :
    ((swap xs m j).take m ++ [xs.getD j 0]).Perm xs := by
  rw [← swap_last_eq xs j hm]
  exact swap_perm xs m j (by omega) (by omega)

theorem applyDraws_unique_exists (n : Nat) : ∀ xs : List Nat, xs.length = n + 1 → xs.Nodup →
    ∀ p : List Nat, p.Perm xs →
      ∃! js : List Nat, js.length = n ∧ Admissible js ∧ applyDraws js xs = p := by
  induction n with
  | zero =>
    intro xs hlen _ p hp
    refine ⟨[], ⟨rfl, trivial, ?_⟩, ?_⟩
    · match xs, hlen with
      | [x], _ => exact (List.perm_singleton.mp hp).symm
    · rintro js ⟨hl, _, _⟩
      exact List.length_eq_zero.mp hl
  | succ n ih =>
    intro xs hlen hnd p hp
    have hpl : p.length = n + 1 + 1 := by rw [hp.length_eq, hlen]
    have hpne : p ≠ [] := by intro h; rw [h] at hpl; simp at hpl
    obtain ⟨p', c, rfl⟩ : ∃ p' c, p = p' ++ [c] :=
      ⟨p.dropLast, p.getLast hpne, (List.dropLast_append_getLast hpne).symm⟩
    have hc : c ∈ xs := hp.mem_iff.mp (by simp)
    obtain ⟨j0, hj0, hxj⟩ := List.getElem_of_mem hc
    have hj0' : j0 ≤ n + 1 := by omega
    have hgd : xs.getD j0 0 = c := by rw [List.getD_eq_getElem _ 0 hj0, hxj]
    have key : ∀ j, j ≤ n + 1 →
        ((swap xs (n + 1) j).take (n + 1)).length = n + 1
        ∧ ((swap xs (n + 1) j).take (n + 1)).Nodup
        ∧ ((swap xs (n + 1) j).take (n + 1) ++ [xs.getD j 0]).Perm xs := by
      intro j hj
      have hperm := take_swap_perm xs hlen hj
      refine ⟨?_, ?_, hperm⟩
      · rw [List.length_take, length_swap, hlen]; omega
      · have := (hperm.nodup_iff).mpr hnd
        exact (List.nodup_append.mp this).1
    obtain ⟨hfl, hfn, hfp⟩ := key j0 hj0'
    rw [hgd] at hfp
    have hp' : p'.Perm ((swap xs (n + 1) j0).take (n + 1)) :=
      (List.perm_append_right_iff [c]).mp (hp.trans hfp.symm)
    obtain ⟨js', ⟨hl', ha', he'⟩, huniq⟩ := ih _ hfl hfn p' hp'
    refine ⟨j0 :: js', ⟨by simp [hl'], ⟨by omega, ha'⟩, ?_⟩, ?_⟩
    · rw [applyDraws_cons_eq xs j0 js' (by omega) ha', hl', he', hgd]
    · rintro js ⟨hl, ha, he⟩
      match js, hl, ha, he with
      | j :: js1, hl, ha, he =>
        have hl1 : js1.length = n := by simpa using hl
        have hj : j ≤ n + 1 := by have := ha.1; omega
        rw [applyDraws_cons_eq xs j js1 (by omega) ha.2, hl1] at he
        have hlast := List.append_inj' he (by simp)
        have hjc : xs.getD j 0 = c := by simpa using hlast.2
        have hjlt : j < xs.length := by omega
        rw [List.getD_eq_getElem _ 0 hjlt, ← hxj] at hjc
        have hjj : j = j0 := (hnd.getElem_inj_iff).mp hjc
        subst hjj
        have := huniq js1 ⟨hl1, ha.2, hlast.1⟩
        rw [this]

theorem drawsFrom_of_getD (js : List Nat) : ∀ pre : List Nat, Admissible js →
    drawsFrom { stream := fun k => (pre ++ js).getD k 0, pos := pre.length } js.length = js := by
  induction js with
  | nil => intro pre _; rfl
  | cons j js ih =>
    intro pre ha
    have h1 : (pre ++ j :: js).getD pre.length 0 = j := by
      rw [List.getD_eq_getElem _ 0 (by simp), List.getElem_append_right (Nat.le_refl _)]
      simp
    have h2 : j % (js.length + 1 + 1) = j := Nat.mod_eq_of_lt (by have := ha.1; omega)
    have h3 := ih (pre ++ [j]) ha.2
    simp only [List.length_append, List.length_singleton, List.append_assoc,
      List.singleton_append] at h3
    simp only [List.length_cons, drawsFrom, h1, h2, h3]

theorem drawsFrom_readerOf {js : List Nat} (ha : Admissible js) :
    drawsFrom (readerOf js) js.length = js :=
  drawsFrom_of_getD js [] ha

theorem shuffle_readerOf (xs : List Nat) {js : List Nat} (hl : js.length = xs.length - 1)
    (ha : Admissible js) :
    shuffle xs (readerOf js) = .ok (applyDraws js xs, { readerOf js with pos := xs.length - 1 }) := by
  rw [shuffle_eq, ← hl, drawsFrom_readerOf ha]
  simp [readerOf]

theorem applyDraws_perm_of_length (xs : List Nat) {js : List Nat}
    (hl : js.length = xs.length - 1) (ha : Admissible js) : (applyDraws js xs).Perm xs := by
  cases xs with
  | nil =>
    have : js = [] := List.length_eq_zero.mp (by simpa using hl)
    rw [this]
    exact List.Perm.refl _
  | cons x xs => exact applyDraws_perm js _ ha (by simp at hl ⊢; omega)

/-- C9: `shuffle` on a sequence of pairwise distinct runes is an unbiased
Fisher–Yates permutation: every admissible draw sequence
`(j_{n-1}, ..., j_1)`, `0 <= j_i <= i`, makes `shuffle` return a permutation of
the input; every permutation of the input is returned for exactly one
admissible draw sequence; and the input has `n!` permutations. -/
theorem shuffle_bijection (xs : List Nat) (hnd : xs.Nodup) :
    (∀ js : List Nat, js.length = xs.length - 1 → Admissible js →
        ∃ p rd', shuffle xs (readerOf js) = .ok (p, rd') ∧ p.Perm xs)
      ∧ (∀ p : List Nat, p.Perm xs →
        ∃! js : List Nat, js.length = xs.length - 1 ∧ Admissible js
          ∧ ∃ rd', shuffle xs (readerOf js) = .ok (p, rd'))
      ∧ (∀ p : List Nat, p ∈ xs.permutations ↔ p.Perm xs)
      ∧ xs.permutations.length = xs.length.factorial := by
  refine ⟨?_, ?_, fun p => List.mem_permutations, List.length_permutations xs⟩
  · intro js hl ha
    exact ⟨_, _, shuffle_readerOf xs hl ha, applyDraws_perm_of_length xs hl ha⟩
  · intro p hp
    have hex : ∃! js : List Nat, js.length = xs.length - 1 ∧ Admissible js
        ∧ applyDraws js xs = p := by
      cases hx : xs with
      | nil =>
        rw [hx] at hp
        have hpn : p = [] := List.Perm.eq_nil hp
        refine ⟨[], ⟨rfl, trivial, by rw [hpn]; rfl⟩, ?_⟩
        rintro js ⟨hl, _, _⟩
        exact List.length_eq_zero.mp (by simpa using hl)
      | cons x t =>
        rw [hx] at hp hnd
        have := applyDraws_unique_exists t.length (x :: t) (by simp) hnd p hp
        simpa using this
    obtain ⟨js, ⟨hl, ha, he⟩, huniq⟩ := hex
    refine ⟨js, ⟨hl, ha, _, he ▸ shuffle_readerOf xs hl ha⟩, ?_⟩
    rintro js2 ⟨hl2, ha2, rd', h2⟩
    apply huniq js2 ⟨hl2, ha2, ?_⟩
    rw [shuffle_readerOf xs hl2 ha2] at h2
    simp only [Except.ok.injEq, Prod.mk.injEq] at h2
    exact h2.1

theorem shuffle_bijection_witness :
    (∀ js : List Nat, js.length = [10, 20, 30].length - 1 → Admissible js →
        ∃ p rd', shuffle [10, 20, 30] (readerOf js) = .ok (p, rd') ∧ p.Perm [10, 20, 30])
      ∧ (∀ p : List Nat, p.Perm [10, 20, 30] →
        ∃! js : List Nat, js.length = [10, 20, 30].length - 1 ∧ Admissible js
          ∧ ∃ rd', shuffle [10, 20, 30] (readerOf js) = .ok (p, rd'))
      ∧ (∀ p : List Nat, p ∈ [10, 20, 30].permutations ↔ p.Perm [10, 20, 30])
      ∧ [10, 20, 30].permutations.length = [10, 20, 30].length.factorial :=
  shuffle_bijection [10, 20, 30] (by decide)

/-! ## `randomChar` and the base alphabets -/

/-- C11: for every ASCII pool of `N` characters and every draw value `n < N`
(so the pool is non-empty), `randomChar` returns the one-character string
that holds the pool character at position `n`, which is a member of the pool,
and advances the reader by one draw; among the `N` draw values, position `n`
is selected by `n` and by no other. -/
theorem randomChar_selects (pool : GoString) (rd : RandReader) (n : Nat)
    (ha : IsASCII pool) (hn : n < pool.length) (hd : rd.stream rd.pos = n) :
    randomChar pool rd = .ok ([pool.get ⟨n, hn⟩], { rd with pos := rd.pos + 1 })
      ∧ stringRunes [pool.get ⟨n, hn⟩] = [(pool.get ⟨n, hn⟩).toNat]
      ∧ pool.get ⟨n, hn⟩ ∈ pool
      ∧ ∀ m, m < pool.length → (m % pool.length = n ↔ m = n) := by
  have hpos : 0 < pool.length := Nat.lt_of_le_of_lt (Nat.zero_le _) hn
  have hmem : pool.get ⟨n, hn⟩ ∈ pool := List.get_mem _ _ _
  refine ⟨?_, ?_, hmem, ?_⟩
  · rw [randomChar_eq rd hpos ha, hd]
    simp only [pick, Nat.mod_eq_of_lt hn, List.getD_eq_getElem _ 0 hn]
    rfl
  · exact stringRunes_ascii (s := [pool.get ⟨n, hn⟩])
      (fun b hb => by rw [List.mem_singleton.mp hb]; exact ha _ hmem)
  · intro m hm
    rw [Nat.mod_eq_of_lt hm]

theorem randomChar_selects_witness :
    randomChar digitChars (readerOf [5]) = .ok ([digitChars.get ⟨5, by decide⟩],
        { readerOf [5] with pos := (readerOf [5]).pos + 1 })
      ∧ stringRunes [digitChars.get ⟨5, by decide⟩] = [(digitChars.get ⟨5, by decide⟩).toNat]
      ∧ digitChars.get ⟨5, by decide⟩ ∈ digitChars
      ∧ ∀ m, m < digitChars.length → (m % digitChars.length = 5 ↔ m = 5) :=
  randomChar_selects digitChars (readerOf [5]) 5 (by decide) (by decide) rfl

/-- C12, as stated, fails: `upperChars` contains `L` and `lowerChars`
contains `i`, both characters of `similarChars`, and `filterChars` with
`excludeSimilar` set changes these two alphabets. -/
theorem base_alphabets_not_similar_free :
    ((0x4C : UInt8) ∈ upperChars ∧ (0x4C : UInt8) ∈ similarChars)
      ∧ ((0x69 : UInt8) ∈ lowerChars ∧ (0x69 : UInt8) ∈ similarChars)
      ∧ filterChars upperChars true false ≠ upperChars
      ∧ filterChars lowerChars true false ≠ lowerChars := by
  decide

/-- C12, amended: `digitChars` contains no character of `similarChars` (it
omits 0 and 1) and `filterChars` with `excludeSimilar` set and
`excludeAmbiguous` unset returns it unchanged; the only similar character of
`upperChars` is `L` and the only one of `lowerChars` is `i`, and `filterChars`
returns these two alphabets without that character. -/
theorem base_alphabets_similar :
    (∀ b ∈ digitChars, b ∉ similarChars)
      ∧ (0x30 : UInt8) ∉ digitChars ∧ (0x31 : UInt8) ∉ digitChars
      ∧ filterChars digitChars true false = digitChars
      ∧ (∀ b ∈ upperChars, b ∈ similarChars ↔ b = 0x4C)
      ∧ (∀ b ∈ lowerChars, b ∈ similarChars ↔ b = 0x69)
      ∧ filterChars upperChars true false = goString "ABCDEFGHJKMNPQRSTUVWXYZ"
      ∧ filterChars lowerChars true false = goString "abcdefghjkmnpqrstuvwxyz" := by
  decide

theorem randomChar_ok_of_ne_nil {pool : GoString} (rd : RandReader) (h : pool ≠ []) :
    ∃ c, randomChar pool rd = .ok (c, { rd with pos := rd.pos + 1 }) := by
  have hpos : 0 < pool.length := List.length_pos.mpr h
  have hk : rd.stream rd.pos % pool.length < pool.length := Nat.mod_lt _ hpos
  exact ⟨encodeRune (pool[rd.stream rd.pos % pool.length]).toNat,
    by simp only [randomChar, randInt_ok rd hpos, index_ok pool hk]⟩

theorem GeneratePassword_returns_or_make_panics (maxLen : Nat) (length : Int)
    (d s u l es ea : Bool) (rd : RandReader) :
    (∃ r rd', GeneratePassword maxLen length d s u l es ea rd = .ok (r, rd'))
      ∨ ((maxLen : Int) < length
        ∧ GeneratePassword maxLen length d s u l es ea rd = .error .makesliceLenOutOfRange) := by
  by_cases h8 : length < 8
  · exact Or.inl ⟨_, _, GeneratePassword_of_lt d s u l es ea rd h8⟩
  · have h8' : 8 ≤ length := by omega
    rcases flags_cases d s u l with ⟨rfl, rfl, rfl, rfl⟩ | hc
    · exact Or.inl ⟨_, _, GeneratePassword_of_no_class es ea rd h8'⟩
    · by_cases hm : length ≤ (maxLen : Int)
      · obtain ⟨pw, he, _, _⟩ := GeneratePassword_ok d s u l es ea rd h8' hc hm
        exact Or.inl ⟨_, _, he⟩
      · exact Or.inr ⟨by omega, GeneratePassword_too_long d s u l es ea rd h8' hc (by omega)⟩

/-- C13: with the constants of the program, `filterChars` returns a
non-empty string for each of the four base alphabets and each combination of
the two exclusion flags; so for every request (with a length of at least 8 or
not) each pool handed to `randomChar` (the filtered alphabet of an enabled
class, and the combined pool once a class is enabled) is non-empty,
`randomChar` on a non-empty pool draws below a positive bound and indexes in
range, and `GeneratePassword` never ends with the panic of `rand.Int` or with
an index out of range: it returns whenever `make` can allocate the slice
(`length <= maxLen`).  On an empty pool `randomChar` would panic. -/
theorem generatePassword_pools_nonempty (maxLen : Nat) (length : Int) (d s u l es ea : Bool)
    (rd : RandReader) :
    (∀ a b : Bool, filterChars digitChars a b ≠ [] ∧ filterChars symbolChars a b ≠ []
        ∧ filterChars upperChars a b ≠ [] ∧ filterChars lowerChars a b ≠ [])
      ∧ (∀ p ∈ enabledPools d s u l es ea, p ≠ [])
      ∧ (enabledPools d s u l es ea ≠ [] → combinedPool d s u l es ea ≠ [])
      ∧ (∃ requiredChars rd1, collectClasses d s u l es ea rd
          = .ok (combinedPool d s u l es ea, requiredChars, rd1))
      ∧ (∀ (pool : GoString) (rd0 : RandReader), pool ≠ [] →
          rd0.stream rd0.pos % pool.length < pool.length
          ∧ ∃ c rd1, randomChar pool rd0 = .ok (c, rd1))
      ∧ (∀ rd0 : RandReader, randomChar [] rd0 = .error .randIntNonPositive)
      ∧ GeneratePassword maxLen length d s u l es ea rd ≠ .error .randIntNonPositive
      ∧ GeneratePassword maxLen length d s u l es ea rd ≠ .error .indexOutOfRange
      ∧ (length ≤ (maxLen : Int) →
          ∃ r rd', GeneratePassword maxLen length d s u l es ea rd = .ok (r, rd')) := by
  have hcases := GeneratePassword_returns_or_make_panics maxLen length d s u l es ea rd
  refine ⟨by decide, ?_, ?_, ⟨_, _, collectClasses_eq d s u l es ea rd⟩, ?_, fun _ => rfl,
    ?_, ?_, ?_⟩
  rotate_left 3
  · intro h
    rcases hcases with ⟨r, rd', he⟩ | ⟨_, he⟩ <;> rw [he] at h <;> cases h
  · intro h
    rcases hcases with ⟨r, rd', he⟩ | ⟨_, he⟩ <;> rw [he] at h <;> cases h
  · intro hm
    rcases hcases with he | ⟨hlt, _⟩
    · exact he
    · omega
  · intro p hp
    exact List.length_pos.mp (enabledPools_ok d s u l es ea p hp).1
  · intro hne
    have hc : (d || s || u || l) = true := by
      rcases flags_cases d s u l with ⟨rfl, rfl, rfl, rfl⟩ | hc
      · exact absurd rfl hne
      · exact hc
    exact List.length_pos.mp (length_combinedPool_pos es ea hc)
  · intro pool rd0 hne
    obtain ⟨c, hc⟩ := randomChar_ok_of_ne_nil rd0 hne
    exact ⟨Nat.mod_lt _ (List.length_pos.mpr hne), c, _, hc⟩

/-- C14: for every rune slice (the empty and the one-element slice
included) and every state of the random source, `shuffle` ends without an
index out of range, makes `len - 1` draws and returns a permutation of its
input, of the same length and with the same number of occurrences of every
rune; and when the draws are an admissible sequence `j_{n-1}, ..., j_1`
(`0 <= j_i <= i`) the result is the slice obtained by these exchanges. -/
theorem shuffle_permutation (xs : List Nat) (rd : RandReader) :
    (∃ p rd', shuffle xs rd = .ok (p, rd') ∧ p.Perm xs ∧ p.length = xs.length
        ∧ (∀ a, p.count a = xs.count a) ∧ rd'.pos = rd.pos + (xs.length - 1))
      ∧ shuffle [] rd = .ok ([], rd)
      ∧ (∀ x, shuffle [x] rd = .ok ([x], rd))
      ∧ ∀ js : List Nat, js.length = xs.length - 1 → Admissible js →
          ∃ rd', shuffle xs (readerOf js) = .ok (applyDraws js xs, rd')
            ∧ (applyDraws js xs).Perm xs := by
  refine ⟨⟨_, _, shuffle_eq xs rd, shuffle_perm xs rd, (shuffle_perm xs rd).length_eq,
    fun a => (shuffle_perm xs rd).count_eq a, rfl⟩, rfl, fun _ => rfl, ?_⟩
  intro js hl ha
  exact ⟨_, shuffle_readerOf xs hl ha, applyDraws_perm_of_length xs hl ha⟩

theorem shuffle_permutation_witness :
    (∃ p rd', shuffle [7, 7, 9, 4] sampleReader = .ok (p, rd') ∧ p.Perm [7, 7, 9, 4]
        ∧ p.length = [7, 7, 9, 4].length
        ∧ (∀ a, p.count a = [7, 7, 9, 4].count a)
        ∧ rd'.pos = sampleReader.pos + ([7, 7, 9, 4].length - 1))
      ∧ shuffle [] sampleReader = .ok ([], sampleReader)
      ∧ (∀ x, shuffle [x] sampleReader = .ok ([x], sampleReader))
      ∧ ∀ js : List Nat, js.length = [7, 7, 9, 4].length - 1 → Admissible js →
          ∃ rd', shuffle [7, 7, 9, 4] (readerOf js) = .ok (applyDraws js [7, 7, 9, 4], rd')
            ∧ (applyDraws js [7, 7, 9, 4]).Perm [7, 7, 9, 4] :=
  shuffle_permutation [7, 7, 9, 4] sampleReader

/-! ## The assembled slice, the combined pool and the unreachable error -/

/-- C15: for every call that returns without error, with `k` enabled
classes and requested length `n`: `1 <= k <= 4`; the slice handed to `shuffle`
holds at positions `0..k-1` one character per enabled class, in the order
digits, symbols, upper, lower, each drawn from that class's own filtered
alphabet, and at positions `k..n-1` exactly `n - k` characters, each drawn
from the combined pool; the assembly makes exactly `n` draws (`k` in the class
blocks and `n - k` in the fill loop) before `shuffle` is called. -/
theorem generatePassword_assembly (maxLen : Nat) (length : Int) (d s u l es ea : Bool)
    (rd rd' : RandReader) (pw : GoString)
    (h : GeneratePassword maxLen length d s u l es ea rd = .ok ((pw, none), rd')) :
    ∃ (req fill : GoString) (rd1 rd2 : RandReader) (p2 : List Nat),
      collectClasses d s u l es ea rd
          = .ok (combinedPool d s u l es ea, req.map (fun b => [b]), rd1)
        ∧ assemble maxLen length (combinedPool d s u l es ea) (req.map (fun b => [b])) rd1
          = .ok ((req ++ fill).map UInt8.toNat, rd2)
        ∧ shuffle ((req ++ fill).map UInt8.toNat) rd2 = .ok (p2, rd')
        ∧ pw = encodeRunes p2
        ∧ req.length = [d, s, u, l].count true ∧ 1 ≤ req.length ∧ req.length ≤ 4
        ∧ List.Forall₂ (fun b p => b ∈ p) req (enabledPools d s u l es ea)
        ∧ req = requiredBytes rd.stream (enabledPools d s u l es ea) rd.pos
        ∧ (fill.length : Int) = length - (req.length : Int)
        ∧ (∀ b ∈ fill, b ∈ combinedPool d s u l es ea)
        ∧ fill = fillBytes rd.stream (combinedPool d s u l es ea)
            (length.toNat - req.length) (rd.pos + req.length)
        ∧ rd1.pos = rd.pos + req.length
        ∧ (rd2.pos : Int) = (rd.pos : Int) + length := by
  obtain ⟨⟨h8, hm⟩, hc, _, _, _⟩ := GeneratePassword_success h
  obtain ⟨n, rfl⟩ := Int.eq_ofNat_of_zero_le (by omega : 0 ≤ length)
  have hm' : n ≤ maxLen := by omega
  have hk := length_enabledPools_le d s u l es ea
  have hk1 : 1 ≤ (enabledPools d s u l es ea).length :=
    List.length_pos.mpr (enabledPools_ne_nil es ea hc)
  have hok := enabledPools_ok d s u l es ea
  have hpos := length_combinedPool_pos es ea hc
  have hne : combinedPool d s u l es ea ≠ [] := List.ne_nil_of_length_pos hpos
  have hlt : ¬ ((n : Int) < 8) := by omega
  have hlt2 : ¬ ((n : Int) < ((enabledPools d s u l es ea).length : Int)) := by omega
  have hasm := assemble_eq hpos (isASCII_combinedPool d s u l es ea) n
    (requiredBytes rd.stream (enabledPools d s u l es ea) rd.pos)
    { rd with pos := rd.pos + (enabledPools d s u l es ea).length }
    (by rw [length_requiredBytes]; omega) hm'
  simp only [length_requiredBytes] at hasm
  simp only [GeneratePassword, hlt, if_false, collectClasses_eq, hne, hlt2, hasm, shuffle_eq,
    List.length_map, length_requiredBytes, Except.ok.injEq, Prod.mk.injEq, and_true] at h
  refine ⟨requiredBytes rd.stream (enabledPools d s u l es ea) rd.pos,
    fillBytes rd.stream (combinedPool d s u l es ea) (n - (enabledPools d s u l es ea).length)
      (rd.pos + (enabledPools d s u l es ea).length), _, _, _,
    collectClasses_eq d s u l es ea rd, hasm, ?_, h.1.symm, ?_, ?_, ?_, ?_, rfl, ?_, ?_, ?_, ?_, ?_⟩
  · rw [shuffle_eq, ← h.2]
    simp only [List.length_map]
  · rw [length_requiredBytes, length_enabledPools]
  · rw [length_requiredBytes]; exact hk1
  · rw [length_requiredBytes]; exact hk
  · exact requiredBytes_forall₂ _ _ (fun p hp => (hok p hp).1) _
  · rw [length_fillBytes, length_requiredBytes]; omega
  · exact fun b hb => mem_of_mem_fillBytes _ hpos _ _ b hb
  · simp only [length_requiredBytes, Int.toNat_ofNat]
  · simp only [length_requiredBytes]
  · simp only [length_requiredBytes]; omega

theorem generatePassword_assembly_witness :
    ∃ (req fill : GoString) (rd1 rd2 : RandReader) (p2 : List Nat),
      collectClasses true true true true true true sampleReader
          = .ok (combinedPool true true true true true true, req.map (fun b => [b]), rd1)
        ∧ assemble maxLen64 8 (combinedPool true true true true true true)
            (req.map (fun b => [b])) rd1
          = .ok ((req ++ fill).map UInt8.toNat, rd2)
        ∧ shuffle ((req ++ fill).map UInt8.toNat) rd2
          = .ok (p2, { sampleReader with pos := 15 })
        ∧ ([53, 69, 55, 64, 52, 56, 98, 64] : GoString) = encodeRunes p2
        ∧ req.length = [true, true, true, true].count true ∧ 1 ≤ req.length ∧ req.length ≤ 4
        ∧ List.Forall₂ (fun b p => b ∈ p) req (enabledPools true true true true true true)
        ∧ req = requiredBytes sampleReader.stream (enabledPools true true true true true true)
            sampleReader.pos
        ∧ (fill.length : Int) = 8 - (req.length : Int)
        ∧ (∀ b ∈ fill, b ∈ combinedPool true true true true true true)
        ∧ fill = fillBytes sampleReader.stream (combinedPool true true true true true true)
            ((8 : Int).toNat - req.length) (sampleReader.pos + req.length)
        ∧ rd1.pos = sampleReader.pos + req.length
        ∧ (rd2.pos : Int) = (sampleReader.pos : Int) + 8 :=
  generatePassword_assembly maxLen64 8 true true true true true true sampleReader
    { sampleReader with pos := 15 } [53, 69, 55, 64, 52, 56, 98, 64] rfl

/-- C16: the `charPool` that `GeneratePassword` builds is the concatenation,
in the order digits, symbols, upper, lower, of the filtered alphabets of
exactly the enabled classes; with the four classes enabled and both
exclusions set it is the 68-character string
`23456789!@#$%^&*_+-=|?ABCDEFGHJKMNPQRSTUVWXYZabcdefghjkmnpqrstuvwxyz`, which
has no repeated character. -/
theorem charPool_concatenation (d s u l es ea : Bool) (rd : RandReader) :
    (∃ requiredChars rd1, collectClasses d s u l es ea rd
        = .ok ((if d then filterChars digitChars es ea else [])
            ++ (if s then filterChars symbolChars es ea else [])
            ++ (if u then filterChars upperChars es ea else [])
            ++ (if l then filterChars lowerChars es ea else []), requiredChars, rd1))
      ∧ combinedPool d s u l es ea
        = (if d then filterChars digitChars es ea else [])
            ++ (if s then filterChars symbolChars es ea else [])
            ++ (if u then filterChars upperChars es ea else [])
            ++ (if l then filterChars lowerChars es ea else [])
      ∧ combinedPool true true true true true true
        = goString "23456789" ++ goString "!@#$%^&*_+-=|?"
            ++ goString "ABCDEFGHJKMNPQRSTUVWXYZ" ++ goString "abcdefghjkmnpqrstuvwxyz"
      ∧ (combinedPool true true true true true true).length = 68
      ∧ (stringRunes (combinedPool true true true true true true)).length = 68
      ∧ (combinedPool true true true true true true).Nodup := by
  have hcp : combinedPool d s u l es ea
      = (if d then filterChars digitChars es ea else [])
          ++ (if s then filterChars symbolChars es ea else [])
          ++ (if u then filterChars upperChars es ea else [])
          ++ (if l then filterChars lowerChars es ea else []) := by
    cases d <;> cases s <;> cases u <;> cases l <;> simp [combinedPool, enabledPools]
  refine ⟨⟨_, _, hcp ▸ collectClasses_eq d s u l es ea rd⟩, hcp, by decide, by decide, by decide,
    by decide⟩

theorem length_lengthTooShortForClasses (k : Nat) :
    (lengthTooShortForClasses k).length = 61 + (toString k).length := by
  have h1 : "password length must be at least ".length = 33 := by decide
  have h2 : " for selected character sets".length = 28 := by decide
  simp only [lengthTooShortForClasses, String.length_append, h1, h2]
  omega

/-- C17: for every length, every combination of the six flags and every
state of the random source, `GeneratePassword` never returns the error
"password length must be at least %d for selected character sets", whatever
the number printed: once the length is at least 8 the list `requiredChars` has
at most 4 elements, so `length < len(requiredChars)` is false. -/
theorem generatePassword_never_too_short_for_classes (maxLen : Nat) (length : Int) (d s u l es ea : Bool)
    (rd : RandReader) :
    (∀ (pw : GoString) (k : Nat) (rd' : RandReader),
        GeneratePassword maxLen length d s u l es ea rd
          ≠ .ok ((pw, some (lengthTooShortForClasses k)), rd'))
      ∧ (8 ≤ length → ∃ charPool requiredChars rd1,
          collectClasses d s u l es ea rd = .ok (charPool, requiredChars, rd1)
            ∧ requiredChars.length ≤ 4 ∧ ¬ (length < (requiredChars.length : Int))) := by
  constructor
  · intro pw k rd' h
    have hlen := length_lengthTooShortForClasses k
    by_cases h8 : length < 8
    · rw [GeneratePassword_of_lt d s u l es ea rd h8] at h
      simp only [Except.ok.injEq, Prod.mk.injEq, Option.some.injEq] at h
      have e : "password length must be at least 8 characters".length = 45 := by decide
      rw [h.1.2] at e
      omega
    · have h8' : 8 ≤ length := by omega
      rcases flags_cases d s u l with ⟨rfl, rfl, rfl, rfl⟩ | hc
      · rw [GeneratePassword_of_no_class es ea rd h8'] at h
        simp only [Except.ok.injEq, Prod.mk.injEq, Option.some.injEq] at h
        have e : "at least one character set must be selected".length = 43 := by decide
        rw [h.1.2] at e
        omega
      · rcases GeneratePassword_of_class maxLen d s u l es ea rd h8' hc with
          ⟨pw2, rd2, he⟩ | he
        · rw [he] at h
          simp at h
        · rw [he] at h
          cases h
  · intro h8
    have hk := length_enabledPools_le d s u l es ea
    refine ⟨_, _, _, collectClasses_eq d s u l es ea rd, ?_, ?_⟩
    · rw [List.length_map, length_requiredBytes]; exact hk
    · rw [List.length_map, length_requiredBytes]; omega

/-! ## Algebra of `filterChars` -/

theorem validRune_decodeRune (s : GoString) : ValidRune (decodeRune s).1 := by
  unfold decodeRune ValidRune
  cases s with
  | nil => simp [RuneError]
  | cons b0 rest =>
    have h0 : b0.toNat < 256 := UInt8.toNat_lt_size b0
    simp only [List.map_cons]
    repeat' split
    all_goals (simp only [RuneError, isCont, decide_eq_true_eq] at *; omega)

theorem validRune_of_mem_stringRunesAux (fuel : Nat) :
    ∀ s : GoString, ∀ r ∈ stringRunesAux fuel s, ValidRune r := by
  induction fuel with
  | zero => intro s r hr; simp [stringRunesAux] at hr
  | succ f ih =>
    intro s r hr
    cases s with
    | nil => simp [stringRunesAux] at hr
    | cons b bs =>
      simp only [stringRunesAux, List.mem_cons] at hr
      rcases hr with rfl | hr
      · exact validRune_decodeRune _
      · exact ih _ r hr

theorem validRune_of_mem_stringRunes (s : GoString) : ∀ r ∈ stringRunes s, ValidRune r :=
  validRune_of_mem_stringRunesAux _ s

theorem stringRunes_filterChars (s : GoString) (a b : Bool) :
    stringRunes (filterChars s a b) = filterSpec (stringRunes s) a b := by
  rw [filterChars_eq]
  apply stringRunes_encodeRunes
  intro c hc
  exact validRune_of_mem_stringRunes s c (List.mem_of_mem_filter hc)

theorem filterChars_filterChars (s : GoString) (a b a2 b2 : Bool) :
    filterChars (filterChars s a b) a2 b2
      = encodeRunes (filterSpec (filterSpec (stringRunes s) a b) a2 b2) := by
  rw [filterChars_eq (filterChars s a b), stringRunes_filterChars]

theorem filterSpec_filterSpec (cs : List Nat) (a b a2 b2 : Bool) :
    filterSpec (filterSpec cs a b) a2 b2 = filterSpec cs (a || a2) (b || b2) := by
  simp only [filterSpec, List.filter_filter]
  apply List.filter_congr
  intro c _
  simp only [keepSpec]
  generalize decide (c ∈ "il1Lo0O".toList.map Char.toNat) = p
  generalize decide (c ∈ "\x7b\x7d[]()/\\\x27\"\x60~,;:.<>".toList.map Char.toNat) = q
  cases a <;> cases b <;> cases a2 <;> cases b2 <;> cases p <;> cases q <;> rfl

/-- C19: for every string `s` (valid UTF-8 or not) and flags `a`, `b`,
`filterChars` is idempotent, and excluding both sets at once is the same as
excluding them one after the other, in either order. -/
theorem filterChars_idempotent_compose (s : GoString) (a b : Bool) :
    filterChars (filterChars s a b) a b = filterChars s a b
      ∧ filterChars s true true = filterChars (filterChars s true false) false true
      ∧ filterChars (filterChars s true false) false true
        = filterChars (filterChars s false true) true false := by
  refine ⟨?_, ?_, ?_⟩
  · rw [filterChars_filterChars, filterSpec_filterSpec, Bool.or_self, Bool.or_self,
      ← filterChars_eq]
  · rw [filterChars_filterChars, filterSpec_filterSpec, filterChars_eq]
    rfl
  · rw [filterChars_filterChars, filterChars_filterChars, filterSpec_filterSpec,
      filterSpec_filterSpec]
    rfl

/-! ## Completeness of the generator -/

theorem applyDraws_exists (n : Nat) : ∀ xs : List Nat, xs.length = n + 1 →
    ∀ p : List Nat, p.Perm xs →
      ∃ js : List Nat, js.length = n ∧ Admissible js ∧ applyDraws js xs = p := by
  induction n with
  | zero =>
    intro xs hlen p hp
    refine ⟨[], rfl, trivial, ?_⟩
    match xs, hlen with
    | [x], _ => exact (List.perm_singleton.mp hp).symm
  | succ n ih =>
    intro xs hlen p hp
    have hpl : p.length = n + 1 + 1 := by rw [hp.length_eq, hlen]
    have hpne : p ≠ [] := by intro h; rw [h] at hpl; simp at hpl
    obtain ⟨p', c, rfl⟩ : ∃ p' c, p = p' ++ [c] :=
      ⟨p.dropLast, p.getLast hpne, (List.dropLast_append_getLast hpne).symm⟩
    have hc : c ∈ xs := hp.mem_iff.mp (by simp)
    obtain ⟨j0, hj0, hxj⟩ := List.getElem_of_mem hc
    have hj0' : j0 ≤ n + 1 := by omega
    have hgd : xs.getD j0 0 = c := by rw [List.getD_eq_getElem _ 0 hj0, hxj]
    have hfp := take_swap_perm xs hlen hj0'
    rw [hgd] at hfp
    have hfl : ((swap xs (n + 1) j0).take (n + 1)).length = n + 1 := by
      rw [List.length_take, length_swap, hlen]; omega
    have hp' : p'.Perm ((swap xs (n + 1) j0).take (n + 1)) :=
      (List.perm_append_right_iff [c]).mp (hp.trans hfp.symm)
    obtain ⟨js', hl', ha', he'⟩ := ih _ hfl p' hp'
    refine ⟨j0 :: js', by simp [hl'], ⟨by omega, ha'⟩, ?_⟩
    rw [applyDraws_cons_eq xs j0 js' (by omega) ha', hl', he', hgd]

theorem drawsFrom_eq_of_stream (js : List Nat) : ∀ rd : RandReader, Admissible js →
    (∀ i, i < js.length → rd.stream (rd.pos + i) = js.getD i 0) →
    drawsFrom rd js.length = js := by
  induction js with
  | nil => intro rd _ _; rfl
  | cons j js ih =>
    intro rd ha hs
    have h0 : rd.stream rd.pos = j := by simpa using hs 0 (by simp)
    have h2 : j % (js.length + 1 + 1) = j := Nat.mod_eq_of_lt (by have := ha.1; omega)
    have h3 := ih { rd with pos := rd.pos + 1 } ha.2 (by
      intro i hi
      have := hs (i + 1) (by simpa using hi)
      simpa [Nat.add_assoc, Nat.add_comm 1 i] using this)
    simp only [List.length_cons, drawsFrom, h0, h2, h3]

theorem exists_pick_eq {pool : GoString} {b : UInt8} (h : b ∈ pool) :
    ∃ raw, pick pool raw = b := by
  obtain ⟨n, hn, hb⟩ := List.getElem_of_mem h
  refine ⟨n, ?_⟩
  unfold pick
  rw [Nat.mod_eq_of_lt hn, List.getD_eq_getElem _ 0 hn, hb]

theorem requiredBytes_eq_of_stream (ps : List GoString) : ∀ req : GoString,
    List.Forall₂ (fun b p => b ∈ p) req ps →
    ∃ idx : List Nat, idx.length = ps.length ∧ ∀ (stream : Nat → Nat) (pos : Nat),
      (∀ i, i < idx.length → stream (pos + i) = idx.getD i 0) →
      requiredBytes stream ps pos = req := by
  induction ps with
  | nil =>
    intro req h
    cases h
    exact ⟨[], rfl, fun _ _ _ => rfl⟩
  | cons p ps ih =>
    intro req h
    cases h with
    | cons hb hrest =>
      rename_i b req'
      obtain ⟨raw, hraw⟩ := exists_pick_eq hb
      obtain ⟨idx, hl, hidx⟩ := ih req' hrest
      refine ⟨raw :: idx, by simp [hl], ?_⟩
      intro stream pos hs
      have h0 : stream pos = raw := by simpa using hs 0 (by simp)
      have h1 := hidx stream (pos + 1) (by
        intro i hi
        have := hs (i + 1) (by simpa using hi)
        simpa [Nat.add_assoc, Nat.add_comm 1 i] using this)
      simp only [requiredBytes, h0, hraw, h1]

theorem fillBytes_eq_of_stream (pool : GoString) : ∀ fill : GoString,
    (∀ b ∈ fill, b ∈ pool) →
    ∃ idx : List Nat, idx.length = fill.length ∧ ∀ (stream : Nat → Nat) (pos : Nat),
      (∀ i, i < idx.length → stream (pos + i) = idx.getD i 0) →
      fillBytes stream pool fill.length pos = fill := by
  intro fill
  induction fill with
  | nil => intro _; exact ⟨[], rfl, fun _ _ _ => rfl⟩
  | cons b fill ih =>
    intro h
    obtain ⟨raw, hraw⟩ := exists_pick_eq (h b (List.mem_cons_self _ _))
    obtain ⟨idx, hl, hidx⟩ := ih (fun x hx => h x (List.mem_cons_of_mem _ hx))
    refine ⟨raw :: idx, by simp [hl], ?_⟩
    intro stream pos hs
    have h0 : stream pos = raw := by simpa using hs 0 (by simp)
    have h1 := hidx stream (pos + 1) (by
      intro i hi
      have := hs (i + 1) (by simpa using hi)
      simpa [Nat.add_assoc, Nat.add_comm 1 i] using this)
    simp only [List.length_cons, fillBytes, h0, hraw, h1]

theorem exists_required_split (ps : List GoString) :
    ps.Pairwise (fun p q => ∀ b ∈ p, b ∉ q) → ∀ w : GoString,
    (∀ p ∈ ps, ∃ b ∈ w, b ∈ p) →
    ∃ req rest : GoString, w.Perm (req ++ rest) ∧ List.Forall₂ (fun b p => b ∈ p) req ps := by
  induction ps with
  | nil => intro _ w _; exact ⟨[], w, List.Perm.refl _, List.Forall₂.nil⟩
  | cons p ps ih =>
    intro hdis w hcov
    obtain ⟨hp, hps⟩ := List.pairwise_cons.mp hdis
    obtain ⟨b, hbw, hbp⟩ := hcov p (List.mem_cons_self _ _)
    have hcov' : ∀ q ∈ ps, ∃ c ∈ w.erase b, c ∈ q := by
      intro q hq
      obtain ⟨c, hcw, hcq⟩ := hcov q (List.mem_cons_of_mem _ hq)
      have hne : c ≠ b := by
        intro e
        rw [e] at hcq
        exact hp q hq b hbp hcq
      exact ⟨c, (List.mem_erase_of_ne hne).mpr hcw, hcq⟩
    obtain ⟨req, rest, hperm, hf⟩ := ih hps (w.erase b) hcov'
    refine ⟨b :: req, rest, ?_, List.Forall₂.cons hbp hf⟩
    exact (List.perm_cons_erase hbw).trans (hperm.cons b)

theorem sublist_singleton_of_ite (c : Bool) (x : GoString) :
    (if c then [x] else []).Sublist [x] := by
  cases c
  · exact List.nil_sublist _
  · exact List.Sublist.refl _

theorem enabledPools_pairwise (d s u l es ea : Bool) :
    (enabledPools d s u l es ea).Pairwise (fun p q => ∀ b ∈ p, b ∉ q) := by
  obtain ⟨sd, ss, su, sl⟩ := filtered_subset_base es ea
  obtain ⟨dd, ds, du, _⟩ := base_disjoint
  have hall : ([filterChars digitChars es ea, filterChars symbolChars es ea,
      filterChars upperChars es ea, filterChars lowerChars es ea] : List GoString).Pairwise
      (fun p q => ∀ b ∈ p, b ∉ q) := by
    simp only [List.pairwise_cons, List.mem_cons, List.mem_singleton, forall_eq_or_imp,
      forall_eq, List.not_mem_nil, false_implies, implies_true, List.Pairwise.nil, and_true]
    refine ⟨⟨?_, ?_, ?_⟩, ⟨?_, ?_⟩, ?_⟩
    · exact fun b hb hq => (dd b (sd b hb)).1 (ss b hq)
    · exact fun b hb hq => (dd b (sd b hb)).2.1 (su b hq)
    · exact fun b hb hq => (dd b (sd b hb)).2.2 (sl b hq)
    · exact fun b hb hq => (ds b (ss b hb)).2.1 (su b hq)
    · exact fun b hb hq => (ds b (ss b hb)).2.2 (sl b hq)
    · exact fun b hb hq => (du b (su b hb)).2.2 (sl b hq)
  have hsub : (enabledPools d s u l es ea).Sublist
      ([filterChars digitChars es ea] ++ [filterChars symbolChars es ea]
        ++ [filterChars upperChars es ea] ++ [filterChars lowerChars es ea]) :=
    (((sublist_singleton_of_ite d _).append (sublist_singleton_of_ite s _)).append
      (sublist_singleton_of_ite u _)).append (sublist_singleton_of_ite l _)
  exact hall.sublist hsub

theorem getD_append_mid (a b c : List Nat) {i : Nat} (hi : i < b.length) :
    (a ++ b ++ c).getD (a.length + i) 0 = b.getD i 0 := by
  rw [List.append_assoc, List.getD_eq_getElem _ 0 (by simp; omega),
    List.getD_eq_getElem _ 0 hi, List.getElem_append_right (by omega)]
  simp only [Nat.add_sub_cancel_left]
  rw [List.getElem_append_left hi]

/-- C18, as stated for every length `n >= 8`, fails: for `n = 2^62` and the
lowercase class alone, the string `w` of `n` letters `a` is made of characters
of the combined pool and contains a character of the filtered lowercase
alphabet, but on a 64-bit platform no state of the random source makes
`GeneratePassword` return it: `make([]rune, n)` panics. -/
theorem generatePassword_complete_makeslice_panic :
    (List.replicate (2 ^ 62) (0x61 : UInt8)).length = 2 ^ 62
      ∧ (∀ b ∈ List.replicate (2 ^ 62) (0x61 : UInt8),
          b ∈ combinedPool false false false true true true)
      ∧ (∃ b ∈ List.replicate (2 ^ 62) (0x61 : UInt8), b ∈ filterChars lowerChars true true)
      ∧ ¬ ∃ rd rd', GeneratePassword maxLen64 (((2 ^ 62 : Nat) : Int)) false false false true
          true true rd = .ok ((List.replicate (2 ^ 62) (0x61 : UInt8), none), rd') := by
  have ha : (0x61 : UInt8) ∈ filterChars lowerChars true true := by decide
  refine ⟨List.length_replicate _ _, ?_, ⟨0x61, ?_, ha⟩, ?_⟩
  · intro b hb
    rw [(List.mem_replicate.mp hb).2]
    exact mem_combinedPool.mpr (Or.inr (Or.inr (Or.inr ⟨rfl, ha⟩)))
  · exact List.mem_replicate.mpr ⟨by decide, rfl⟩
  · rintro ⟨rd, rd', h⟩
    rw [GeneratePassword_too_long false false false true true true rd (by decide) rfl
      (by decide)] at h
    cases h

/-- C18, amended: for every length `n >= 8` that `make([]rune, n)` can
allocate (`n <= maxLen`), every flag combination with at least one class
enabled and every string `w` of `n` characters of the combined pool that
contains at least one character of the filtered alphabet of each enabled
class, some state of the random source makes `GeneratePassword` return
exactly `w`, without error. -/
theorem generatePassword_complete (maxLen n : Nat) (d s u l es ea : Bool) (w : GoString)
    (h8 : 8 ≤ n) (hm : n ≤ maxLen) (hc : d = true ∨ s = true ∨ u = true ∨ l = true)
    (hlen : w.length = n)
    (hpool : ∀ b ∈ w, b ∈ combinedPool d s u l es ea)
    (hd : d = true → ∃ b ∈ w, b ∈ filterChars digitChars es ea)
    (hs : s = true → ∃ b ∈ w, b ∈ filterChars symbolChars es ea)
    (hu : u = true → ∃ b ∈ w, b ∈ filterChars upperChars es ea)
    (hl : l = true → ∃ b ∈ w, b ∈ filterChars lowerChars es ea) :
    ∃ rd rd', GeneratePassword maxLen (n : Int) d s u l es ea rd = .ok ((w, none), rd') := by
  have hc' : (d || s || u || l) = true := by
    rcases hc with h | h | h | h <;> simp [h]
  have hcov : ∀ p ∈ enabledPools d s u l es ea, ∃ b ∈ w, b ∈ p := by
    intro p hp
    rcases mem_enabledPools.mp hp with ⟨h, rfl⟩ | ⟨h, rfl⟩ | ⟨h, rfl⟩ | ⟨h, rfl⟩
    · exact hd h
    · exact hs h
    · exact hu h
    · exact hl h
  have hk := length_enabledPools_le d s u l es ea
  obtain ⟨req, rest, hperm, hf⟩ :=
    exists_required_split _ (enabledPools_pairwise d s u l es ea) w hcov
  have hreql : req.length = (enabledPools d s u l es ea).length := hf.length_eq
  have hrestl : rest.length = n - (enabledPools d s u l es ea).length := by
    have := hperm.length_eq
    rw [List.length_append, hlen] at this
    omega
  have hrestp : ∀ b ∈ rest, b ∈ combinedPool d s u l es ea := fun b hb =>
    hpool b (hperm.mem_iff.mpr (List.mem_append_right _ hb))
  obtain ⟨i1, hl1, hi1⟩ := requiredBytes_eq_of_stream _ req hf
  obtain ⟨i2, hl2, hi2⟩ := fillBytes_eq_of_stream (combinedPool d s u l es ea) rest hrestp
  have hxl : ((req ++ rest).map UInt8.toNat).length = (n - 1) + 1 := by
    rw [List.length_map, ← hperm.length_eq, hlen]; omega
  obtain ⟨js, hjl, hja, hje⟩ := applyDraws_exists (n - 1) _ hxl (w.map UInt8.toNat)
    (hperm.map UInt8.toNat)
  have hst : ∀ k, (readerOf (i1 ++ i2 ++ js)).stream k = (i1 ++ i2 ++ js).getD k 0 := fun _ => rfl
  have e1 : requiredBytes (readerOf (i1 ++ i2 ++ js)).stream (enabledPools d s u l es ea) 0
      = req := by
    apply hi1
    intro i hi
    rw [hst, List.append_assoc, Nat.zero_add, List.getD_eq_getElem _ 0 (by simp; omega),
      List.getD_eq_getElem _ 0 hi, List.getElem_append_left hi]
  have e2 : fillBytes (readerOf (i1 ++ i2 ++ js)).stream (combinedPool d s u l es ea)
      (n - (enabledPools d s u l es ea).length) (0 + (enabledPools d s u l es ea).length)
      = rest := by
    rw [← hrestl]
    apply hi2
    intro i hi
    rw [hst, Nat.zero_add, ← hl1]
    exact getD_append_mid i1 i2 js hi
  have e3 : drawsFrom { readerOf (i1 ++ i2 ++ js) with pos := 0 + n } (n - 1) = js := by
    rw [← hjl]
    apply drawsFrom_eq_of_stream js _ hja
    intro i hi
    have hn : 0 + n = (i1 ++ i2).length := by
      rw [List.length_append, hl1, hl2, hrestl]; omega
    show (readerOf (i1 ++ i2 ++ js)).stream (0 + n + i) = js.getD i 0
    rw [hst, hn, List.getD_eq_getElem _ 0 (by simp; omega), List.getD_eq_getElem _ 0 hi,
      List.getElem_append_right (by omega)]
    simp only [Nat.add_sub_cancel_left]
  have hback : (w.map UInt8.toNat).map Nat.toUInt8 = w := by
    rw [List.map_map]
    conv => rhs; rw [← List.map_id w]
    exact List.map_congr_left (fun b _ => toUInt8_toNat b)
  refine ⟨readerOf (i1 ++ i2 ++ js),
    { readerOf (i1 ++ i2 ++ js) with pos := (readerOf (i1 ++ i2 ++ js)).pos + n + (n - 1) }, ?_⟩
  rw [GeneratePassword_eq n d s u l es ea _ h8 hc' hm]
  have hpos0 : (readerOf (i1 ++ i2 ++ js)).pos = 0 := rfl
  simp only [assembledBytes, hpos0, e1, e2, e3, hje, hback]

theorem generatePassword_complete_witness :
    ∃ rd rd', GeneratePassword maxLen64 ((8 : Nat) : Int) true false false true true true rd
      = .ok (((goString "aaaaaaa2"), none), rd') :=
  generatePassword_complete maxLen64 8 true false false true true true (goString "aaaaaaa2")
    (by decide) (by decide) (Or.inl rfl) (by decide) (by decide) (by decide) (by decide) (by decide)
    (by decide)

end PasswordGenerator
